import Mathlib

/-!
Verification development for `generate_csv_from_db.py`: a shallow embedding of
the script's normalization, grouping, chunk-rebalancing and CSV-row rendering
logic, together with theorems settling the specification's claims.

Raw database values are modelled as `Option String`, matching what the script's
CSV reader (`csv.DictReader` over a psql `COPY ... CSV` stream) delivers: a
string per present column, `None` for an absent one.  SQLite integer values are
modelled by their decimal strings, which is behaviourally equivalent for every
consumer in the script (`to_int_or_zero`, `normalize_bool_to_int`,
`normalize_datetime` all go through `str(value)`).
-/

namespace GenCsv

/-- ASCII whitespace stripped by Python's `str.strip()` (Python also strips the
rarer Unicode space characters; inputs in this development stay in ASCII). -/
def pyIsSpace (c : Char) : Bool :=
  c = ' ' || c = '\t' || c = '\n' || c = '\r' || c = Char.ofNat 11 || c = Char.ofNat 12

/-- Python `str.strip()`. -/
def pyStrip (s : String) : String :=
  String.mk (((s.data.dropWhile pyIsSpace).reverse.dropWhile pyIsSpace).reverse)

/-- Python `str.rstrip()`. -/
def pyRstrip (s : String) : String :=
  String.mk ((s.data.reverse.dropWhile pyIsSpace).reverse)

/-- Value of a decimal digit string, most significant digit first. -/
def natOfDigits (cs : List Char) : Nat :=
  cs.foldl (fun a c => a * 10 + (c.toNat - 48)) 0

/-- After the first digit, Python's `int()` accepts digits with single
underscores strictly between digits.  Returns the digits with underscores
removed. -/
def pyIntRest : List Char → Option (List Char)
  | [] => some []
  | '_' :: c :: cs => if c.isDigit then (pyIntRest cs).map (fun ds => c :: ds) else none
  | ['_'] => none
  | c :: cs => if c.isDigit then (pyIntRest cs).map (fun ds => c :: ds) else none

/-- Unsigned part of Python `int(s)`: at least one digit, single underscores
allowed between digits. -/
def pyIntCore : List Char → Option Nat
  | c :: cs => if c.isDigit then (pyIntRest cs).map (fun ds => natOfDigits (c :: ds)) else none
  | [] => none

/-- Python `int(s)` for a string: surrounding whitespace stripped, optional
sign, decimal digits with optional single underscores between digits. -/
def pyInt? (s : String) : Option Int :=
  match (pyStrip s).data with
  | '+' :: rest => (pyIntCore rest).map Int.ofNat
  | '-' :: rest => (pyIntCore rest).map (fun n => -(n : Int))
  | rest => (pyIntCore rest).map Int.ofNat

/-- Helper `to_int_or_zero(v)`: `int(str(v))`, or `0` on failure.  A missing value
(`None`) stringifies to `"None"`, which fails to parse, giving `0`. -/
def to_int_or_zero : Option String → Int
  | none => 0
  | some s => (pyInt? s).getD 0

/-- Python `value or ""` for an optional string field. -/
def orEmpty : Option String → String
  | none => ""
  | some s => s

/-- Slicer `chunked(seq, size)`: consecutive slices `seq[i:i+size]` for
`i = 0, size, 2*size, ...`.  The script only calls it with `size ≥ 1`
(`--chunk-size`, default 5000); Python raises `ValueError` for `size = 0`,
modelled here as producing no chunks.  The recursion is driven by an element
count (`chunkedF`) so that it is structural: when `size ≥ 1` every step
consumes at least one element, so a fuel of `seq.length` is never
exhausted. -/
def chunkedF : Nat → List α → Nat → List (List α)
  | _, _, 0 => []
  | _, [], _ + 1 => []
  | 0, _ :: _, _ + 1 => []
  | fuel + 1, x :: xs, n + 1 =>
    (x :: xs).take (n + 1) :: chunkedF fuel ((x :: xs).drop (n + 1)) (n + 1)

def chunked (seq : List α) (size : Nat) : List (List α) :=
  chunkedF seq.length seq size

theorem chunked_nil (n : Nat) : chunked ([] : List α) n = [] := by
  cases n <;> rfl

theorem chunkedF_flatten (fuel : Nat) (seq : List α) (n : Nat)
    (hf : seq.length ≤ fuel) (hn : 0 < n) :
    (chunkedF fuel seq n).flatten = seq := by
  induction fuel generalizing seq with
  | zero =>
    match seq, n with
    | [], m + 1 => rfl
    | x :: xs, m + 1 => simp at hf
  | succ f ih =>
    match seq, n with
    | [], m + 1 => rfl
    | x :: xs, m + 1 =>
      simp only [chunkedF, List.flatten_cons]
      rw [ih ((x :: xs).drop (m + 1)) (by simp at hf ⊢; omega)]
      exact List.take_append_drop _ _

/-- Concatenating the chunks restores the sequence (for a positive size). -/
theorem chunked_flatten (seq : List α) (n : Nat) (hn : 0 < n) :
    (chunked seq n).flatten = seq :=
  chunkedF_flatten seq.length seq n (le_refl _) hn

theorem chunkedF_length_le (fuel : Nat) (seq : List α) (n : Nat)
    (hf : seq.length ≤ fuel) :
    ∀ c ∈ chunkedF fuel seq n, c ≠ [] ∧ c.length ≤ n := by
  induction fuel generalizing seq n with
  | zero =>
    match seq, n with
    | _, 0 => intro c hc; simp [chunkedF] at hc
    | [], m + 1 => intro c hc; simp [chunkedF] at hc
    | x :: xs, m + 1 => simp at hf
  | succ f ih =>
    match seq, n with
    | _, 0 => intro c hc; simp [chunkedF] at hc
    | [], m + 1 => intro c hc; simp [chunkedF] at hc
    | x :: xs, m + 1 =>
      intro c hc
      rcases List.mem_cons.mp hc with hc | hc
      · subst hc
        exact ⟨by simp, by simp⟩
      · exact ih ((x :: xs).drop (m + 1)) (m + 1) (by simp at hf ⊢; omega) c hc

/-- Every chunk is nonempty and has at most `n` elements. -/
theorem chunked_length_le (seq : List α) (n : Nat) :
    ∀ c ∈ chunked seq n, c ≠ [] ∧ c.length ≤ n :=
  chunkedF_length_le seq.length seq n (le_refl _)

theorem chunkedF_length_eq (fuel : Nat) (seq : List α) (n : Nat)
    (hf : seq.length ≤ fuel) :
    ∀ i : Nat, i + 1 < (chunkedF fuel seq n).length →
      ((chunkedF fuel seq n).getD i []).length = n := by
  induction fuel generalizing seq n with
  | zero =>
    match seq, n with
    | _, 0 => intro i hi; simp [chunkedF] at hi
    | [], m + 1 => intro i hi; simp [chunkedF] at hi
    | x :: xs, m + 1 => simp at hf
  | succ f ih =>
    match seq, n with
    | _, 0 => intro i hi; simp [chunkedF] at hi
    | [], m + 1 => intro i hi; simp [chunkedF] at hi
    | x :: xs, m + 1 =>
      intro i hi
      match i with
      | 0 =>
        simp only [chunkedF, List.getD_cons_zero]
        simp only [chunkedF, List.length_cons] at hi
        have hne : chunkedF f ((x :: xs).drop (m + 1)) (m + 1) ≠ [] := by
          intro h
          rw [h] at hi
          simp at hi
        have hdrop : (x :: xs).drop (m + 1) ≠ [] := by
          intro h
          have : chunkedF f ((x :: xs).drop (m + 1)) (m + 1) = [] := by
            rw [h]
            cases f <;> rfl
          exact hne this
        have hlen : m + 1 ≤ (x :: xs).length := by
          by_contra hlt
          push_neg at hlt
          exact hdrop (List.drop_eq_nil_of_le (by omega))
        simpa using List.length_take_of_le hlen
      | j + 1 =>
        simp only [chunkedF, List.getD_cons_succ]
        refine ih ((x :: xs).drop (m + 1)) (m + 1) (by simp at hf ⊢; omega) j ?_
        simp only [chunkedF, List.length_cons] at hi
        omega

/-- Every chunk except possibly the last has exactly `n` elements. -/
theorem chunked_length_eq (seq : List α) (n : Nat) :
    ∀ i : Nat, i + 1 < (chunked seq n).length →
      ((chunked seq n).getD i []).length = n :=
  chunkedF_length_eq seq.length seq n (le_refl _)

/-- Python string comparison: lexicographic by code point (for the ordering
`a` at-most `b`). -/
def charListLe : List Char → List Char → Bool
  | [], _ => true
  | _ :: _, [] => false
  | a :: as, b :: bs =>
    if a.toNat < b.toNat then true
    else if b.toNat < a.toNat then false
    else charListLe as bs

theorem charListLe_total (a b : List Char) :
    charListLe a b = true ∨ charListLe b a = true := by
  induction a generalizing b with
  | nil => left; rfl
  | cons x as ih =>
    cases b with
    | nil => right; rfl
    | cons y bs =>
      by_cases h1 : x.toNat < y.toNat
      · left; simp [charListLe, h1]
      · by_cases h2 : y.toNat < x.toNat
        · right; simp [charListLe, h1, h2]
        · rcases ih bs with h | h
          · left; simp [charListLe, h1, h2, h]
          · right; simp [charListLe, h1, h2, h]

theorem charListLe_trans (a b c : List Char) (hab : charListLe a b = true)
    (hbc : charListLe b c = true) : charListLe a c = true := by
  induction a generalizing b c with
  | nil => rfl
  | cons x as ih =>
    cases b with
    | nil => simp [charListLe] at hab
    | cons y bs =>
      cases c with
      | nil => simp [charListLe] at hbc
      | cons z cs =>
        simp only [charListLe] at hab hbc ⊢
        by_cases h1 : x.toNat < y.toNat
        · rw [if_pos h1] at hab
          by_cases h2 : y.toNat < z.toNat
          · rw [if_pos (by omega : x.toNat < z.toNat)]
          · rw [if_neg h2] at hbc
            by_cases h2a : z.toNat < y.toNat
            · rw [if_pos h2a] at hbc
              exact absurd hbc (by simp)
            · rw [if_pos (by omega : x.toNat < z.toNat)]
        · rw [if_neg h1] at hab
          by_cases h1a : y.toNat < x.toNat
          · rw [if_pos h1a] at hab
            exact absurd hab (by simp)
          · rw [if_neg h1a] at hab
            by_cases h2 : y.toNat < z.toNat
            · rw [if_pos (by omega : x.toNat < z.toNat)]
            · rw [if_neg h2] at hbc
              by_cases h2a : z.toNat < y.toNat
              · rw [if_pos h2a] at hbc
                exact absurd hbc (by simp)
              · rw [if_neg h2a] at hbc
                rw [if_neg (by omega : ¬ x.toNat < z.toNat),
                  if_neg (by omega : ¬ z.toNat < x.toNat)]
                exact ih bs cs hab hbc

/-- Python `s.replace(old, new)` for a one-character pattern (the only shape
the script uses: `"T"`, `"Z"`). -/
def pyReplaceChar (s : String) (old : Char) (new : String) : String :=
  String.mk (s.data.flatMap (fun c => if c = old then new.data else [c]))

/-- ASCII lowering, as Python case-insensitivity acts on the script's ASCII
tokens. -/
def pyLowerChar (c : Char) : Char :=
  if 65 ≤ c.toNat ∧ c.toNat ≤ 90 then Char.ofNat (c.toNat + 32) else c

def pyLower (s : String) : String := String.mk (s.data.map pyLowerChar)

/-!  ## Data model

Normalized records as consumed by `split_and_write_lists_and_items`.  The
function reads fields with `.get`, so fields that may be absent in a row
dictionary are `Option`-typed: `normalize_list_row` always supplies an integer
`borrower_id`, but the splitter itself checks it against `None`;
`normalize_item_row` stores `""` for a missing raw `list_id` (modelled `none`)
and never stores a `borrower_id` or `item_id` key at all.  An item's `item_id`
is only interpolated into a warning message and carries no behaviour, so it is
not modelled.  `list_id` of a list record is always an `Int` here, which makes
the `isinstance(e.get("list_id"), int)` filter in the splitter pass every
record. -/

structure NList where
  list_id : Int
  borrower_id : Option Int
  name : String
  description : String
  date_created : String
  date_updated : String
  public_list : Int
deriving Repr, DecidableEq

structure NItem where
  list_id : Option Int
  bib_id : String
  date_added : String
  borrower_id : Option Int
deriving Repr, DecidableEq

/-- Comparison used by `assoc.sort(key=lambda x: x.get("date_added") or "")`:
the key is the `date_added` string (`"" or ""` is `""`), compared
lexicographically by code point, exactly Python's string order. -/
def itemLE (a b : NItem) : Prop :=
  charListLe a.date_added.data b.date_added.data = true

instance : DecidableRel itemLE :=
  fun a b => inferInstanceAs (Decidable (_ = true))

instance : IsTotal NItem itemLE := ⟨fun a b => charListLe_total _ _⟩

instance : IsTrans NItem itemLE := ⟨fun _ _ _ => charListLe_trans _ _ _⟩

/-- Python's `list.sort` is a stable sort; a stable sort's output is uniquely
determined by the ordering, so any stable sorting algorithm — here insertion
sort — is extensionally the same function. -/
def sortItems (l : List NItem) : List NItem := List.insertionSort itemLE l

/-!  ## Insertion-ordered grouping maps

Python dictionaries preserve insertion order; `setdefault(k, []).append(v)`
keeps the key at its first-insertion position and appends at the end of its
bucket.  Modelled as association lists. -/

def insertGroup [DecidableEq κ] (m : List (κ × List α)) (k : κ) (v : α) :
    List (κ × List α) :=
  match m with
  | [] => [(k, [v])]
  | (k', vs) :: rest =>
    if k' = k then (k', vs ++ [v]) :: rest else (k', vs) :: insertGroup rest k v

/-- Lookup `m.get(k, [])`. -/
def lookupGroup [DecidableEq κ] (m : List (κ × List α)) (k : κ) : List α :=
  match m with
  | [] => []
  | (k', vs) :: rest => if k' = k then vs else lookupGroup rest k

/-- Grouping of input lists by owner (`lists_by_user`), plus the lists skipped
with a warning because `borrower_id` is `None`. -/
def groupListsByUser (lists_in : List NList) : List (Int × List NList) × List NList :=
  lists_in.foldl
    (fun acc lst =>
      match lst.borrower_id with
      | some b => (insertGroup acc.1 b lst, acc.2)
      | none => (acc.1, acc.2 ++ [lst]))
    ([], [])

structure ItemGroups where
  byList : List (Int × List NItem)
  noListByUser : List (Int × List NItem)
  dropped : List NItem
deriving Repr, DecidableEq

/-- An item is filed as an orphan when its `list_id` is `""`, `None` or `0`. -/
def isOrphanKey : Option Int → Bool
  | none => true
  | some n => decide (n = 0)

/-- Grouping of input items: `items_by_list`, `items_no_list_by_user`, and the
orphan items dropped with a warning for lack of a `borrower_id`. -/
def groupItems (items_in : List NItem) : ItemGroups :=
  items_in.foldl
    (fun acc it =>
      if isOrphanKey it.list_id then
        match it.borrower_id with
        | some b => { acc with noListByUser := insertGroup acc.noListByUser b it }
        | none => { acc with dropped := acc.dropped ++ [it] }
      else
        match it.list_id with
        | some lid => { acc with byList := insertGroup acc.byList lid it }
        | none => acc)
    ⟨[], [], []⟩

/-- Value of `max(existing_ids) if existing_ids else 0`, over the ids of all input
lists (including ones later skipped for a missing owner). -/
def maxExisting : List NList → Int
  | [] => 0
  | l :: rest => rest.foldl (fun m e => max m e.list_id) l.list_id

/-- Seed `next_id = start_id if start_id is not None else (max_id + 1 if max_id else 1_000_000)`;
note Python's truthiness test: the fallback `1_000_000` is used exactly when
`max_id == 0`. -/
def initialNextId (lists_in : List NList) (start_id : Option Int) : Int :=
  match start_id with
  | some s => s
  | none =>
    let m := maxExisting lists_in
    if m ≠ 0 then m + 1 else 1000000

/-- The sorted associated items of one list id:
`items_by_list.get(lid, [])` sorted stably by `date_added`. -/
def sortedAssoc (ibl : List (Int × List NItem)) (lid : Int) : List NItem :=
  sortItems (lookupGroup ibl lid)

/-- Lookup `list_name_counts.get(base_name, 1)`. -/
def getCount (counts : List (String × Nat)) (s : String) : Nat :=
  match counts with
  | [] => 1
  | (k, v) :: rest => if k = s then v else getCount rest s

/-- Update `list_name_counts[base_name] = v` (dict update keeps key position). -/
def setCount (counts : List (String × Nat)) (s : String) (v : Nat) :
    List (String × Nat) :=
  match counts with
  | [] => [(s, v)]
  | (k, w) :: rest => if k = s then (k, v) :: rest else (k, w) :: setCount rest s v

/-- The chunk-list display name from the f-string in the splitter. -/
def mkChunkName (base : String) (n : Nat) : String :=
  base ++ " (" ++ toString n ++ ")"

/-- The inner chunk loop of the splitter: for each chunk, allocate `next_id`,
build the derived record (`dict(base)` with `list_id` and `name` replaced) and
pair the chunk with the fresh id.  Returns
(new list records, (new id, chunk) pairs, next id, name counter state). -/
def allocChunks (base : NList) :
    List (List NItem) → Int → List (String × Nat) →
    List NList × List (Int × List NItem) × Int × List (String × Nat)
  | [], nid, counts => ([], [], nid, counts)
  | c :: cs, nid, counts =>
    let cnt := getCount counts base.name
    let newRec : NList := { base with list_id := nid, name := mkChunkName base.name cnt }
    let rest := allocChunks base cs (nid + 1) (setCount counts base.name (cnt + 1))
    (newRec :: rest.1, (nid, c) :: rest.2.1, rest.2.2.1, rest.2.2.2)

/-- The per-owner loop body over `user_lists`: returns
(`lists_out`, `new_lists_out`, `items_out`, final `next_id`). -/
def processLists (cap : Nat) (ibl : List (Int × List NItem)) :
    List NList → Int → List (String × Nat) →
    List NList × List NList × List (Int × List NItem) × Int
  | [], nid, _ => ([], [], [], nid)
  | base :: rest, nid, counts =>
    let assoc := sortedAssoc ibl base.list_id
    if assoc.length ≤ cap then
      let r := processLists cap ibl rest nid counts
      (base :: r.1, r.2.1, (base.list_id, assoc) :: r.2.2.1, r.2.2.2)
    else
      let a := allocChunks base (chunked assoc cap) nid counts
      let r := processLists cap ibl rest a.2.2.1 a.2.2.2
      (r.1, a.1 ++ r.2.1, a.2.1 ++ r.2.2.1, r.2.2.2)

/-- Everything the script writes (or would write) into one owner directory:
`lists_1.csv` rows, `new-lists_1.csv` rows, the `list_items_<id>.csv` files in
write order, and the `no_lists_<n>.csv` chunks where the file number `n` is
one plus the position in `no_lists`. -/
structure UserOutput where
  borrower : Int
  lists_out : List NList
  new_lists_out : List NList
  items_out : List (Int × List NItem)
  no_lists : List (List NItem)
deriving Repr, DecidableEq

/-- The outer loop over `lists_by_user`.  A user whose `lists_out` and
`new_lists_out` are both empty is skipped with a warning (`continue`), before
any file — including `no_lists` chunks — is written. -/
def processUsers (cap : Nat) (ibl : List (Int × List NItem))
    (nlbu : List (Int × List NItem)) :
    List (Int × List NList) → Int → List UserOutput × Int
  | [], nid => ([], nid)
  | (b, uls) :: rest, nid =>
    let r := processLists cap ibl uls nid []
    if r.1.isEmpty && r.2.1.isEmpty then
      processUsers cap ibl nlbu rest r.2.2.2
    else
      let tail := processUsers cap ibl nlbu rest r.2.2.2
      ({ borrower := b, lists_out := r.1, new_lists_out := r.2.1,
         items_out := r.2.2.1,
         no_lists := chunked (lookupGroup nlbu b) cap } :: tail.1, tail.2)

structure SplitResult where
  users : List UserOutput
  droppedLists : List NList
  droppedItems : List NItem
deriving Repr, DecidableEq

/-- Embedding of `split_and_write_lists_and_items` (the `max_lists` debug slice, applied by
the caller before this logic, is not modelled; file-system effects are
represented by the returned data).  `chunk_size` is the cap; the script's
`--chunk-size` default is 5000 and every claim assumes a cap ≥ 1. -/
def split_and_write (lists_in : List NList) (items_in : List NItem)
    (chunk_size : Nat) (start_id : Option Int) : SplitResult :=
  let gl := groupListsByUser lists_in
  let gi := groupItems items_in
  let pu := processUsers chunk_size gi.byList gi.noListByUser gl.1
    (initialNextId lists_in start_id)
  { users := pu.1, droppedLists := gl.2, droppedItems := gi.dropped }

/-!  ## CSV cell rendering -/

/-- Rendering `x or ""` for an integer cell: `0` is falsy and renders empty. -/
def orBlankInt (n : Int) : String := if n = 0 then "" else toString n

/-- Rendering `e.get(k) or ""` for an optional integer cell. -/
def orBlankOptInt : Option Int → String
  | none => ""
  | some n => orBlankInt n

/-- One data row of `lists_1.csv` / `new-lists_1.csv` (string fields satisfy
`s or "" = s`). -/
def renderListRow (e : NList) : List String :=
  [orBlankInt e.list_id, orBlankOptInt e.borrower_id, e.name, e.description,
   e.date_created, e.date_updated, if e.public_list = 1 then "1" else "0"]

/-- One data row of a `list_items_<id>.csv` / `no_lists_<n>.csv` file. -/
def renderItemRow (it : NItem) : List String :=
  [(match it.list_id with
    | none => ""
    | some n => orBlankInt n), it.bib_id, it.date_added]

/-- All list ids appearing in the list files of the whole output. -/
def emittedIds (r : SplitResult) : List Int :=
  r.users.flatMap
    (fun u => u.lists_out.map (fun e => e.list_id) ++
      u.new_lists_out.map (fun e => e.list_id))

/-!  ## Datetime parsing and normalization

Embedding of `_try_parse_dt_with_patterns` and `normalize_datetime`.
CPython's `strptime` compiles each directive to a regular expression
alternation (matched case-insensitively, with ordered alternatives and
backtracking) and then validates the captured fields through the `datetime`
constructor.  All directive alternations used here prefer their longest
alternative first and directives are always separated by literal characters,
so the first successfully completing parse coincides with the regex engine's
leftmost-greedy match.  Digits are modelled as ASCII digits. -/

/-- Numeric value of an ASCII digit. -/
def digitVal (c : Char) : Nat := c.toNat - 48

/-- Exactly four digits, as matched for a `%Y` directive. -/
def take4Digits : List Char → Option (Nat × List Char)
  | c1 :: c2 :: c3 :: c4 :: rest =>
    if c1.isDigit ∧ c2.isDigit ∧ c3.isDigit ∧ c4.isDigit then
      some (natOfDigits [c1, c2, c3, c4], rest)
    else none
  | _ => none

/-- Directive `%m`, alternation `1[0-2] | 0[1-9] | [1-9]` in order. -/
def matchMonth : List Char → List (Nat × List Char)
  | c1 :: c2 :: rest =>
    (if c1 = '1' ∧ ('0' ≤ c2 ∧ c2 ≤ '2') then [(10 + digitVal c2, rest)] else []) ++
    (if c1 = '0' ∧ ('1' ≤ c2 ∧ c2 ≤ '9') then [(digitVal c2, rest)] else []) ++
    (if '1' ≤ c1 ∧ c1 ≤ '9' then [(digitVal c1, c2 :: rest)] else [])
  | [c1] => if '1' ≤ c1 ∧ c1 ≤ '9' then [(digitVal c1, [])] else []
  | [] => []

/-- Directive `%d`, alternation `3[01] | [1-2]\d | 0[1-9] | [1-9]` in order. -/
def matchDayDir : List Char → List (Nat × List Char)
  | c1 :: c2 :: rest =>
    (if c1 = '3' ∧ (c2 = '0' ∨ c2 = '1') then [(30 + digitVal c2, rest)] else []) ++
    (if ('1' ≤ c1 ∧ c1 ≤ '2') ∧ c2.isDigit then
      [(digitVal c1 * 10 + digitVal c2, rest)] else []) ++
    (if c1 = '0' ∧ ('1' ≤ c2 ∧ c2 ≤ '9') then [(digitVal c2, rest)] else []) ++
    (if '1' ≤ c1 ∧ c1 ≤ '9' then [(digitVal c1, c2 :: rest)] else [])
  | [c1] => if '1' ≤ c1 ∧ c1 ≤ '9' then [(digitVal c1, [])] else []
  | [] => []

/-- Directive `%H`, alternation `2[0-3] | [0-1]\d | \d` in order. -/
def matchHour : List Char → List (Nat × List Char)
  | c1 :: c2 :: rest =>
    (if c1 = '2' ∧ ('0' ≤ c2 ∧ c2 ≤ '3') then [(20 + digitVal c2, rest)] else []) ++
    (if (c1 = '0' ∨ c1 = '1') ∧ c2.isDigit then
      [(digitVal c1 * 10 + digitVal c2, rest)] else []) ++
    (if c1.isDigit then [(digitVal c1, c2 :: rest)] else [])
  | [c1] => if c1.isDigit then [(digitVal c1, [])] else []
  | [] => []

/-- Directive `%M`, alternation `[0-5]\d | \d` in order. -/
def matchMinute : List Char → List (Nat × List Char)
  | c1 :: c2 :: rest =>
    (if ('0' ≤ c1 ∧ c1 ≤ '5') ∧ c2.isDigit then
      [(digitVal c1 * 10 + digitVal c2, rest)] else []) ++
    (if c1.isDigit then [(digitVal c1, c2 :: rest)] else [])
  | [c1] => if c1.isDigit then [(digitVal c1, [])] else []
  | [] => []

/-- Directive `%S`, alternation `6[0-1] | [0-5]\d | \d` in order (the leap
seconds 60/61 pass the regex and are later rejected by the `datetime`
constructor). -/
def matchSecond : List Char → List (Nat × List Char)
  | c1 :: c2 :: rest =>
    (if c1 = '6' ∧ (c2 = '0' ∨ c2 = '1') then [(60 + digitVal c2, rest)] else []) ++
    (if ('0' ≤ c1 ∧ c1 ≤ '5') ∧ c2.isDigit then
      [(digitVal c1 * 10 + digitVal c2, rest)] else []) ++
    (if c1.isDigit then [(digitVal c1, c2 :: rest)] else [])
  | [c1] => if c1.isDigit then [(digitVal c1, [])] else []
  | [] => []

/-- Directive `%f`, `[0-9]{1,6}` greedy; the captured digits are padded on the
right to six places (microseconds). -/
def matchFracDir (cs : List Char) : List (Nat × List Char) :=
  let avail := min 6 (cs.takeWhile Char.isDigit).length
  ((List.range avail).map (fun j => avail - j)).map
    (fun k => (natOfDigits (cs.take k) * 10 ^ (6 - k), cs.drop k))

/-- Optional colon `:?`, greedy: consuming it is preferred. -/
def colonOpts (cs : List Char) : List (List Char × List Char) :=
  match cs with
  | ':' :: rest => [([':'], rest), ([], ':' :: rest)]
  | _ => [([], cs)]

/-- Two-digit group `[0-5]\d`. -/
def take2D05 : List Char → Option (List Char × List Char)
  | c1 :: c2 :: rest =>
    if ('0' ≤ c1 ∧ c1 ≤ '5') ∧ c2.isDigit then some ([c1, c2], rest) else none
  | _ => none

/-- Optional fraction `(\.\d{1,6})?`, greedy (present with the most digits
first, then absent). -/
def fracOpts (cs : List Char) : List (List Char × List Char) :=
  (match cs with
   | '.' :: rest =>
     let avail := min 6 (rest.takeWhile Char.isDigit).length
     ((List.range avail).map (fun j => avail - j)).map
       (fun k => ('.' :: rest.take k, rest.drop k))
   | _ => []) ++ [([], cs)]

/-- Candidates for the `%z` tail `(:?[0-5]\d(\.\d{1,6})?)?` after the minutes:
seconds group present first (greedy), then absent. -/
def zoneSecOpts (cs : List Char) : List (List Char × List Char) :=
  (colonOpts cs).flatMap
    (fun p =>
      match take2D05 p.2 with
      | some q => (fracOpts q.2).map (fun r => (p.1 ++ q.1 ++ r.1, r.2))
      | none => []) ++ [([], cs)]

/-- Candidates for the `%z` part after the sign and the two hour digits:
`:?[0-5]\d(:?[0-5]\d(\.\d{1,6})?)?`. -/
def zoneAfterHH (cs : List Char) : List (List Char × List Char) :=
  (colonOpts cs).flatMap
    (fun p =>
      match take2D05 p.2 with
      | some q => (zoneSecOpts q.2).map (fun r => (p.1 ++ q.1 ++ r.1, r.2))
      | none => [])

/-- Directive `%z`, regex `[+-]\d\d:?[0-5]\d(:?[0-5]\d(\.\d{1,6})?)?|Z`
(the `Z` branch is case-sensitive).  Returns the matched characters, whose
numeric interpretation happens afterwards in `zoneValue`. -/
def zoneCandidates (cs : List Char) : List (List Char × List Char) :=
  (match cs with
   | s :: h1 :: h2 :: rest =>
     if (s = '+' ∨ s = '-') ∧ h1.isDigit ∧ h2.isDigit then
       (zoneAfterHH rest).map (fun p => (s :: h1 :: h2 :: p.1, p.2))
     else []
   | _ => []) ++
  (match cs with
   | 'Z' :: rest => [(['Z'], rest)]
   | _ => [])

/-- Interpretation of a matched `%z` capture, mirroring `_strptime`: remove a
colon found at index 3, then demand a colon at index 5 of the result if any
characters remain there; read hours, minutes, optional seconds
(`int(z[5:7] or 0)`, which raises on a stray colon), and the fraction
`z[8:]` padded on the right to microseconds; negate for a `-` sign.  A raised
`ValueError` (modelled `none`) aborts the whole pattern attempt. -/
def zoneValue (z : List Char) : Option Int :=
  if z = ['Z'] then some 0
  else
    let z1step : Option (List Char) :=
      if z.getD 3 ' ' = ':' then
        let za := z.take 3 ++ z.drop 4
        if 5 < za.length then
          if za.getD 5 ' ' = ':' then some (za.take 5 ++ za.drop 6) else none
        else some za
      else some z
    match z1step with
    | none => none
    | some z1 =>
      let hours := natOfDigits ((z1.drop 1).take 2)
      let minutes := natOfDigits ((z1.drop 3).take 2)
      let secChars := (z1.drop 5).take 2
      let fracChars := z1.drop 8
      if secChars.all Char.isDigit ∧ fracChars.all Char.isDigit then
        let seconds := natOfDigits secChars
        let frac := natOfDigits fracChars * 10 ^ (6 - fracChars.length)
        let total : Int := ((hours * 3600 + minutes * 60 + seconds) * 1000000 + frac : Nat)
        some (if z.getD 0 ' ' = '-' then -total else total)
      else none

/-- Captured fields of one `strptime` attempt; the zone is kept as raw
characters until `buildDT`. -/
structure ParseEnv where
  y : Option Nat := none
  mo : Option Nat := none
  d : Option Nat := none
  h : Option Nat := none
  mi : Option Nat := none
  s : Option Nat := none
  f : Option Nat := none
  zRaw : Option (List Char) := none
deriving Repr, DecidableEq

inductive FmtTok
  | lit (c : Char)
  | year4 | mon2 | day2 | hour2 | min2 | sec2 | frac6 | zone
deriving Repr, DecidableEq

/-- Alternatives (in regex preference order) for one directive at one input
position.  Literals match case-insensitively, as CPython compiles the format
with `IGNORECASE`. -/
def matchTok : FmtTok → ParseEnv → List Char → List (ParseEnv × List Char)
  | .lit c, e, cs =>
    match cs with
    | c' :: rest => if pyLowerChar c' = pyLowerChar c then [(e, rest)] else []
    | [] => []
  | .year4, e, cs =>
    match take4Digits cs with
    | some (v, r) => [({ e with y := some v }, r)]
    | none => []
  | .mon2, e, cs => (matchMonth cs).map (fun p => ({ e with mo := some p.1 }, p.2))
  | .day2, e, cs => (matchDayDir cs).map (fun p => ({ e with d := some p.1 }, p.2))
  | .hour2, e, cs => (matchHour cs).map (fun p => ({ e with h := some p.1 }, p.2))
  | .min2, e, cs => (matchMinute cs).map (fun p => ({ e with mi := some p.1 }, p.2))
  | .sec2, e, cs => (matchSecond cs).map (fun p => ({ e with s := some p.1 }, p.2))
  | .frac6, e, cs => (matchFracDir cs).map (fun p => ({ e with f := some p.1 }, p.2))
  | .zone, e, cs => (zoneCandidates cs).map (fun p => ({ e with zRaw := some p.1 }, p.2))

/-- First parse of the whole input by the token sequence, with backtracking in
alternative order; the match must consume the entire string (`_strptime`
raises on unconverted data). -/
def matchSeq : List FmtTok → ParseEnv → List Char → Option ParseEnv
  | [], e, cs => if cs = [] then some e else none
  | t :: ts, e, cs => (matchTok t e cs).findSome? (fun p => matchSeq ts p.1 p.2)

def leapYear (y : Nat) : Bool := (y % 4 = 0 && y % 100 != 0) || y % 400 = 0

def daysInMonth (y m : Nat) : Nat :=
  if m = 2 then (if leapYear y then 29 else 28)
  else if m = 4 ∨ m = 6 ∨ m = 9 ∨ m = 11 then 30
  else 31

/-- Calendar datetime as held by a Python `datetime` object (fields already
validated); `tzOff` is the UTC offset in microseconds for an aware value. -/
structure PyDateTime where
  year : Nat
  month : Nat
  day : Nat
  hour : Nat
  minute : Nat
  second : Nat
  usec : Nat
  tzOff : Option Int
deriving Repr, DecidableEq

/-- Validity of a `timezone` offset: strictly between -24h and +24h (in
microseconds). -/
def tzOffOK : Option Int → Bool
  | none => true
  | some o => decide (-86400000000 < o ∧ o < 86400000000)

/-- Range validation performed by the `datetime` (and `timezone`) constructors:
year 1–9999, real calendar day, time below 24:00:00, microseconds below one
second, timezone offset strictly between -24h and +24h. -/
def mkValidDT (y mo d h mi s f : Nat) (off : Option Int) : Option PyDateTime :=
  if (1 ≤ y ∧ y ≤ 9999) ∧ (1 ≤ mo ∧ mo ≤ 12) ∧ (1 ≤ d ∧ d ≤ daysInMonth y mo) ∧
     h ≤ 23 ∧ mi ≤ 59 ∧ s ≤ 59 ∧ f ≤ 999999 ∧ tzOffOK off = true then
    some ⟨y, mo, d, h, mi, s, f, off⟩
  else none

/-- Construction step after a successful regex match: `strptime` defaults
(year 1900, January 1st, midnight) for absent fields, zone interpretation,
and `datetime`/`timezone` range validation. -/
def buildDT (e : ParseEnv) : Option PyDateTime :=
  match e.zRaw with
  | none =>
    mkValidDT (e.y.getD 1900) (e.mo.getD 1) (e.d.getD 1) (e.h.getD 0)
      (e.mi.getD 0) (e.s.getD 0) (e.f.getD 0) none
  | some z =>
    match zoneValue z with
    | none => none
    | some off =>
      mkValidDT (e.y.getD 1900) (e.mo.getD 1) (e.d.getD 1) (e.h.getD 0)
        (e.mi.getD 0) (e.s.getD 0) (e.f.getD 0) (some off)

def fmtDate : List FmtTok := [.year4, .lit '-', .mon2, .lit '-', .day2]

def fmtTimeCommon : List FmtTok := [.hour2, .lit ':', .min2, .lit ':', .sec2]

/-- The eleven patterns of `_try_parse_dt_with_patterns`, in source order. -/
def strptimePatterns : List (List FmtTok) :=
  [ fmtDate ++ [.lit ' '] ++ fmtTimeCommon ++ [.zone],
    fmtDate ++ [.lit ' '] ++ fmtTimeCommon,
    fmtDate ++ [.lit 'T'] ++ fmtTimeCommon ++ [.zone],
    fmtDate ++ [.lit 'T'] ++ fmtTimeCommon,
    fmtDate,
    [.mon2, .lit '/', .day2, .lit '/', .year4, .lit ' '] ++ fmtTimeCommon,
    [.mon2, .lit '/', .day2, .lit '/', .year4],
    fmtDate ++ [.lit ' '] ++ fmtTimeCommon ++ [.lit '.', .frac6, .zone],
    fmtDate ++ [.lit ' '] ++ fmtTimeCommon ++ [.lit '.', .frac6],
    fmtDate ++ [.lit 'T'] ++ fmtTimeCommon ++ [.lit '.', .frac6, .zone],
    fmtDate ++ [.lit 'T'] ++ fmtTimeCommon ++ [.lit '.', .frac6] ]

/-- Preprocessing in `_try_parse_dt_with_patterns`: strip, and turn a trailing
(capital) `Z` into `+0000`. -/
def zPreprocess (s : String) : String :=
  let s2 := pyStrip s
  if s2.data.getLast? = some 'Z' then String.mk s2.data.dropLast ++ "+0000" else s2

/-- One `datetime.strptime` attempt per pattern, first success wins; a
validation failure inside an attempt falls through to the next pattern. -/
def tryParseViaPatterns (s : String) : Option PyDateTime :=
  strptimePatterns.findSome? (fun p => (matchSeq p {} (zPreprocess s).data).bind buildDT)

/-!  ### `datetime.fromisoformat` fallback

Modelled on CPython 3.10's pure-Python implementation: a ten-character
`YYYY-MM-DD` date; optionally one separator character (any character — it is
never inspected) and a time `HH[:MM[:SS[.fff or .ffffff]]]`, optionally
followed by a timezone `±HH:MM[:SS[.ffffff]]` (recognised by the first `-` or
`+` in the time string; its text must be exactly 5, 8 or 15 characters).
Numeric components are modelled as ASCII digit pairs.  CPython 3.11+ widens
this fallback to more ISO 8601 shapes (basic format, week dates, arbitrary
fraction lengths); the concrete inputs evaluated in the theorems below behave
identically under either version. -/

/-- Two ASCII digits read as one component. -/
def parse2d (cs : List Char) : Option Nat :=
  match cs with
  | [c1, c2] => if c1.isDigit ∧ c2.isDigit then some (10 * digitVal c1 + digitVal c2) else none
  | _ => none

/-- Model of `_parse_hh_mm_ss_ff`: `HH[:MM[:SS[.fff or .ffffff]]]`, returning
hours, minutes, seconds, microseconds. -/
def parseHMSF (t : List Char) : Option (Nat × Nat × Nat × Nat) :=
  match parse2d (t.take 2) with
  | none => none
  | some h =>
    match t.drop 2 with
    | [] => some (h, 0, 0, 0)
    | ':' :: r1 =>
      match parse2d (r1.take 2) with
      | none => none
      | some mi =>
        match r1.drop 2 with
        | [] => some (h, mi, 0, 0)
        | ':' :: r2 =>
          match parse2d (r2.take 2) with
          | none => none
          | some s =>
            match r2.drop 2 with
            | [] => some (h, mi, s, 0)
            | '.' :: ds =>
              if ds.all Char.isDigit then
                if ds.length = 3 then some (h, mi, s, natOfDigits ds * 1000)
                else if ds.length = 6 then some (h, mi, s, natOfDigits ds)
                else none
              else none
            | _ => none
        | _ => none
    | _ => none

/-- Model of `datetime.fromisoformat` (CPython 3.10). -/
def pyFromIso (str0 : String) : Option PyDateTime :=
  let cs := str0.data
  let datePart := cs.take 10
  match datePart with
  | [y1, y2, y3, y4, s1, m1, m2, s2, d1, d2] =>
    if (y1.isDigit ∧ y2.isDigit ∧ y3.isDigit ∧ y4.isDigit) ∧ s1 = '-' ∧
       (m1.isDigit ∧ m2.isDigit) ∧ s2 = '-' ∧ (d1.isDigit ∧ d2.isDigit) then
      let y := natOfDigits [y1, y2, y3, y4]
      let mo := 10 * digitVal m1 + digitVal m2
      let d := 10 * digitVal d1 + digitVal d2
      let tstr := cs.drop 11
      if tstr = [] then mkValidDT y mo d 0 0 0 0 none
      else
        let tzIdx : Option Nat :=
          match tstr.indexOf? '-' with
          | some i => some i
          | none => tstr.indexOf? '+'
        match tzIdx with
        | none =>
          match parseHMSF tstr with
          | some (h, mi, s, f) => mkValidDT y mo d h mi s f none
          | none => none
        | some i =>
          match parseHMSF (tstr.take i) with
          | none => none
          | some (h, mi, s, f) =>
            let tzstr := tstr.drop (i + 1)
            if tzstr.length = 5 ∨ tzstr.length = 8 ∨ tzstr.length = 15 then
              match parseHMSF tzstr with
              | none => none
              | some (zh, zm, zs, zf) =>
                let mag : Int := ((zh * 3600 + zm * 60 + zs) * 1000000 + zf : Nat)
                let off : Int := if tstr.getD i ' ' = '-' then -mag else mag
                mkValidDT y mo d h mi s f (some off)
            else none
    else none
  | _ => none

/-!  ### UTC conversion and output formatting -/

/-- Days since 1970-01-01 of a civil date (standard era-based algorithm). -/
def daysFromCivil (y m d : Nat) : Int :=
  let yi : Int := (y : Int) - (if m ≤ 2 then 1 else 0)
  let era : Int := (if 0 ≤ yi then yi else yi - 399) / 400
  let yoe : Int := yi - era * 400
  let mp : Int := (if 2 < m then (m : Int) - 3 else (m : Int) + 9)
  let doy : Int := (153 * mp + 2) / 5 + (d : Int) - 1
  let doe : Int := yoe * 365 + yoe / 4 - yoe / 100 + doy
  era * 146097 + doe - 719468

/-- Civil date of a day count since 1970-01-01 (inverse of `daysFromCivil`). -/
def civilFromDays (z0 : Int) : Int × Int × Int :=
  let z := z0 + 719468
  let era : Int := (if 0 ≤ z then z else z - 146096) / 146097
  let doe : Int := z - era * 146097
  let yoe : Int := (doe - doe / 1460 + doe / 36524 - doe / 146096) / 365
  let y : Int := yoe + era * 400
  let doy : Int := doe - (365 * yoe + yoe / 4 - yoe / 100)
  let mp : Int := (5 * doy + 2) / 153
  let d : Int := doy - (153 * mp + 2) / 5 + 1
  let m : Int := if mp < 10 then mp + 3 else mp - 9
  (y + (if m ≤ 2 then 1 else 0), m, d)

/-- Model of `dt.astimezone(timezone.utc).replace(tzinfo=None)` for an aware
value with offset `off` microseconds: subtract the offset on the linear
microsecond scale and re-read the calendar fields.  Python raises an
uncaught `OverflowError` when the result leaves years 1–9999 (modelled
`none`). -/
def astimezoneUTC (dt : PyDateTime) (off : Int) : Option PyDateTime :=
  let dayUS : Int := 86400000000
  let t : Int := daysFromCivil dt.year dt.month dt.day * dayUS +
    ((dt.hour * 3600 + dt.minute * 60 + dt.second) * 1000000 + dt.usec : Nat) - off
  let days : Int := t / dayUS - (if t % dayUS < 0 then 1 else 0)
  let rem : Int := t - days * dayUS
  let ymd := civilFromDays days
  if 1 ≤ ymd.1 ∧ ymd.1 ≤ 9999 then
    some ⟨ymd.1.toNat, ymd.2.1.toNat, ymd.2.2.toNat,
      (rem / 3600000000).toNat, ((rem / 60000000) % 60).toNat,
      ((rem / 1000000) % 60).toNat, (rem % 1000000).toNat, none⟩
  else none

/-- Zero-padded two-digit component. -/
def pad2 (n : Nat) : String := if n < 10 then "0" ++ toString n else toString n

/-- Output of `dt.strftime("%Y-%m-%d %H:%M:%S")` (glibc prints the year
unpadded; microseconds do not appear). -/
def fmtOutput (dt : PyDateTime) : String :=
  toString dt.year ++ "-" ++ pad2 dt.month ++ "-" ++ pad2 dt.day ++ " " ++
  pad2 dt.hour ++ ":" ++ pad2 dt.minute ++ ":" ++ pad2 dt.second

/-- Model of `_try_parse_dt_with_patterns(s)`: the eleven patterns, then the
`fromisoformat` fallback on the stripped string with every `Z` replaced. -/
def tryParseDt (s : String) : Option PyDateTime :=
  match tryParseViaPatterns s with
  | some dt => some dt
  | none => pyFromIso (pyReplaceChar (pyStrip s) 'Z' "+00:00")

/-- Model of `normalize_datetime(value)` for a string-or-missing raw value
(the `isinstance(value, datetime)` branch is unreachable for rows delivered
by the script's readers).  The result is `none` exactly when the code raises
(uncaught overflow in `astimezone`). -/
def normalize_datetime (value : Option String) : Option String :=
  match value with
  | none => some ""
  | some v =>
    let s := pyStrip v
    if s = "" then some ""
    else
      match tryParseDt s with
      | none => some (pyReplaceChar s 'T' " ")
      | some dt =>
        match dt.tzOff with
        | none => some (fmtOutput dt)
        | some off => (astimezoneUTC dt off).map fmtOutput

/-!  ## Row normalization, booleans, name deduplication -/

/-- Model of `normalize_bool_to_int(value)` for a string-or-missing value.
The truthy tokens map to 1 and every other string — including the falsy
tokens — maps to 0, so the two falsy branches collapse.  (The
`isinstance(value, int)` branch maps a nonzero integer to 1; integers reach
this script's rows only as the 0/1 `public_list` computed by the SQL, whose
decimal strings take the same branches here.) -/
def normalize_bool_to_int : Option String → Int
  | none => 0
  | some s =>
    let t := pyLower (pyStrip s)
    if t = "1" ∨ t = "true" ∨ t = "t" ∨ t = "y" ∨ t = "yes" ∨ t = "on" then 1 else 0

/-- Python slice `s[:i]` for an arbitrary integer bound (a negative bound
counts from the end, clamped at zero). -/
def pySliceTo (s : String) (i : Int) : String :=
  if 0 ≤ i then String.mk (s.data.take i.toNat)
  else String.mk (s.data.take (s.data.length - (-i).toNat))

/-- Model of `truncate_with_suffix(base, suffix, max_len)`. -/
def truncate_with_suffix (base suffix : String) (max_len : Int) : String :=
  if (base.length : Int) + suffix.length ≤ max_len then base ++ suffix
  else pyRstrip (pySliceTo base (max_len - suffix.length)) ++ suffix

/-- Raw list row: column name ↦ optional string, as read from the database. -/
structure RawListRow where
  list_id : Option String := none
  borrower_id : Option String := none
  name : Option String := none
  description : Option String := none
  date_created : Option String := none
  date_updated : Option String := none
  public_list : Option String := none
deriving Repr, DecidableEq

/-- Raw item row. -/
structure RawItemRow where
  item_id : Option String := none
  bib_id : Option String := none
  date_added : Option String := none
  list_id : Option String := none
deriving Repr, DecidableEq

/-- Model of `normalize_list_row(r)`; `none` when `normalize_datetime`
raises.  Note `borrower_id` is always an integer (`to_int_or_zero` maps an
unparseable or missing owner to 0), never `None`. -/
def normalize_list_row (r : RawListRow) : Option NList := do
  let dc ← normalize_datetime r.date_created
  let du ← normalize_datetime r.date_updated
  pure { list_id := to_int_or_zero r.list_id,
         borrower_id := some (to_int_or_zero r.borrower_id),
         name := pyStrip (orEmpty r.name),
         description := orEmpty r.description,
         date_created := dc,
         date_updated := du,
         public_list := normalize_bool_to_int r.public_list }

/-- Model of `normalize_item_row(r)`: the produced dictionary has only the
keys `list_id` (an integer, or `""` — modelled `none` — when the raw value is
`None`), `bib_id` and `date_added`; in particular it never carries a
`borrower_id`. -/
def normalize_item_row (r : RawItemRow) : Option NItem := do
  let da ← normalize_datetime r.date_added
  pure { list_id :=
           (match r.list_id with
            | none => none
            | some _ => some (to_int_or_zero r.list_id)),
         bib_id := orEmpty r.bib_id,
         date_added := da,
         borrower_id := none }

/-- Order-preserving normalization of all list rows, as `main` does via its
worker pool (results are collected in input order). -/
def normalizeListRows (rows : List RawListRow) : Option (List NList) :=
  rows.mapM normalize_list_row

/-- Order-preserving normalization of all item rows. -/
def normalizeItemRows (rows : List RawItemRow) : Option (List NItem) :=
  rows.mapM normalize_item_row

/-- Index groups built by `ensure_unique_names`: stripped name ↦ indices of
records bearing it, in increasing order. -/
def nameGroups (l : List NList) : List (String × List Nat) :=
  l.enum.foldl (fun acc p => insertGroup acc (pyStrip p.2.name) p.1) []

/-- Model of `ensure_unique_names(lists_out, name_max_len)`: every member of
a name group of size at least two is renamed to the base plus a suffix
carrying its 1-based rank within the group (`sorted(idxs)` equals the
collected `idxs`, which are already increasing). -/
def ensure_unique_names (l : List NList) (name_max_len : Int) : List NList :=
  let groups := nameGroups l
  l.enum.map (fun p =>
    let base := pyStrip p.2.name
    let idxs := lookupGroup groups base
    if idxs.length = 1 then p.2
    else
      { p.2 with
        name := truncate_with_suffix base (" (" ++ toString (idxs.indexOf p.1 + 1) ++ ")")
          name_max_len })

/-!  ## Lemmas about the grouping maps -/

def dummyList : NList := ⟨0, none, "", "", "", "", 0⟩

theorem lookupGroup_insertGroup_same [DecidableEq κ] (m : List (κ × List α)) (k : κ) (v : α) :
    lookupGroup (insertGroup m k v) k = lookupGroup m k ++ [v] := by
  induction m with
  | nil => simp [insertGroup, lookupGroup]
  | cons p rest ih =>
    obtain ⟨k0, vs⟩ := p
    by_cases h : k0 = k
    · simp [insertGroup, lookupGroup, h]
    · simp [insertGroup, lookupGroup, h, ih]

theorem lookupGroup_insertGroup_ne [DecidableEq κ] (m : List (κ × List α)) (k k' : κ) (v : α)
    (h : k' ≠ k) :
    lookupGroup (insertGroup m k v) k' = lookupGroup m k' := by
  induction m with
  | nil =>
    have hk : ¬ (k = k') := fun hh => h hh.symm
    simp [insertGroup, lookupGroup, hk]
  | cons p rest ih =>
    obtain ⟨k0, vs⟩ := p
    have hk' : ¬ (k = k') := fun hh => h hh.symm
    by_cases h0 : k0 = k
    · have hk0 : ¬ (k0 = k') := by rw [h0]; exact hk'
      simp [insertGroup, lookupGroup, h0, hk0, hk']
    · by_cases h1 : k0 = k'
      · subst h1
        simp [insertGroup, lookupGroup, h0]
      · simp [insertGroup, lookupGroup, h0, h1, ih]

theorem flatMapSnd_insertGroup [DecidableEq κ] (m : List (κ × List α)) (k : κ) (v : α) :
    ((insertGroup m k v).flatMap Prod.snd).Perm (m.flatMap Prod.snd ++ [v]) := by
  induction m with
  | nil => simp [insertGroup]
  | cons p rest ih =>
    obtain ⟨k0, vs⟩ := p
    by_cases h : k0 = k
    · subst h
      simp only [insertGroup, eq_self_iff_true, if_true, List.flatMap_cons, List.append_assoc]
      exact List.Perm.append_left vs List.perm_append_comm
    · simp only [insertGroup, if_neg h, List.flatMap_cons, List.append_assoc]
      exact List.Perm.append_left vs ih

theorem keys_insertGroup [DecidableEq κ] (m : List (κ × List α)) (k : κ) (v : α) :
    (insertGroup m k v).map Prod.fst =
      if k ∈ m.map Prod.fst then m.map Prod.fst else m.map Prod.fst ++ [k] := by
  induction m with
  | nil => simp [insertGroup]
  | cons p rest ih =>
    obtain ⟨k0, vs⟩ := p
    by_cases h : k0 = k
    · subst h
      simp [insertGroup]
    · simp only [insertGroup, if_neg h, List.map_cons]
      rw [ih]
      have hne : ¬ (k = k0) := fun hh => h hh.symm
      by_cases hm : k ∈ rest.map Prod.fst
      · rw [if_pos hm, if_pos (by simp [hm])]
      · rw [if_neg hm, if_neg (by simp [hne, hm]), List.cons_append]

theorem keysNodup_insertGroup [DecidableEq κ] (m : List (κ × List α)) (k : κ) (v : α)
    (h : (m.map Prod.fst).Nodup) : ((insertGroup m k v).map Prod.fst).Nodup := by
  rw [keys_insertGroup]
  by_cases hm : k ∈ m.map Prod.fst
  · rw [if_pos hm]; exact h
  · rw [if_neg hm]
    rw [List.nodup_append]
    refine ⟨h, List.nodup_singleton k, ?_⟩
    intro a ha hak
    rw [List.mem_singleton] at hak
    exact hm (hak ▸ ha)

theorem mem_insertGroup [DecidableEq κ] (m : List (κ × List α)) (k : κ) (v : α)
    (p : κ × List α) (hp : p ∈ insertGroup m k v) :
    p ∈ m ∨ p.1 = k := by
  induction m with
  | nil =>
    simp only [insertGroup, List.mem_singleton] at hp
    right; rw [hp]
  | cons q rest ih =>
    obtain ⟨k0, vs⟩ := q
    by_cases h : k0 = k
    · simp only [insertGroup, if_pos h] at hp
      rcases List.mem_cons.mp hp with hp | hp
      · right; rw [hp]; exact h
      · left; exact List.mem_cons_of_mem _ hp
    · simp only [insertGroup, if_neg h] at hp
      rcases List.mem_cons.mp hp with hp | hp
      · left; rw [hp]; exact List.mem_cons_self _ _
      · rcases ih hp with hh | hh
        · left; exact List.mem_cons_of_mem _ hh
        · right; exact hh

/-- In a map with distinct keys, a member pair is recovered by lookup. -/
theorem lookupGroup_of_mem [DecidableEq κ] (m : List (κ × List α))
    (hk : (m.map Prod.fst).Nodup) (p : κ × List α) (hp : p ∈ m) :
    lookupGroup m p.1 = p.2 := by
  induction m with
  | nil => simp at hp
  | cons q rest ih =>
    obtain ⟨k0, vs⟩ := q
    simp only [List.map_cons, List.nodup_cons] at hk
    rcases List.mem_cons.mp hp with hp | hp
    · rw [hp]
      simp [lookupGroup]
    · have hk0 : ¬ (k0 = p.1) := by
        intro h
        exact hk.1 (h ▸ List.mem_map_of_mem Prod.fst hp)
      simp only [lookupGroup, if_neg hk0]
      exact ih hk.2 hp

theorem mem_of_lookupGroup_ne_nil [DecidableEq κ] (m : List (κ × List α)) (k : κ)
    (h : lookupGroup m k ≠ []) : (k, lookupGroup m k) ∈ m := by
  induction m with
  | nil => simp [lookupGroup] at h
  | cons q rest ih =>
    obtain ⟨k0, vs⟩ := q
    by_cases h0 : k0 = k
    · subst h0
      simp [lookupGroup]
    · simp only [lookupGroup, if_neg h0] at h ⊢
      exact List.mem_cons_of_mem _ (ih h)

/-!  ## Characterizations of the grouping passes -/

theorem groupListsByUser_go_lookup (l : List NList)
    (acc : List (Int × List NList) × List NList) (b : Int) :
    lookupGroup (l.foldl
      (fun acc lst =>
        match lst.borrower_id with
        | some b => (insertGroup acc.1 b lst, acc.2)
        | none => (acc.1, acc.2 ++ [lst])) acc).1 b =
      lookupGroup acc.1 b ++ l.filter (fun e => e.borrower_id == some b) := by
  induction l generalizing acc with
  | nil => simp
  | cons x rest ih =>
    simp only [List.foldl_cons, List.filter_cons]
    cases hx : x.borrower_id with
    | none =>
      simp only [hx]
      rw [ih]
      simp
    | some b' =>
      simp only [hx]
      rw [ih]
      by_cases hb : b' = b
      · subst hb
        simp [lookupGroup_insertGroup_same]
      · have : ¬ (b = b') := fun hh => hb hh.symm
        rw [lookupGroup_insertGroup_ne _ _ _ _ this]
        simp [Option.some.injEq, hb]

theorem groupListsByUser_lookup (l : List NList) (b : Int) :
    lookupGroup (groupListsByUser l).1 b =
      l.filter (fun e => e.borrower_id == some b) := by
  have := groupListsByUser_go_lookup l ([], []) b
  simpa [groupListsByUser, lookupGroup] using this

theorem groupListsByUser_go_dropped (l : List NList)
    (acc : List (Int × List NList) × List NList) :
    (l.foldl
      (fun acc lst =>
        match lst.borrower_id with
        | some b => (insertGroup acc.1 b lst, acc.2)
        | none => (acc.1, acc.2 ++ [lst])) acc).2 =
      acc.2 ++ l.filter (fun e => e.borrower_id == none) := by
  induction l generalizing acc with
  | nil => simp
  | cons x rest ih =>
    simp only [List.foldl_cons, List.filter_cons]
    cases hx : x.borrower_id with
    | none => simp [hx, ih]
    | some b' => simp [hx, ih]

theorem groupListsByUser_dropped (l : List NList) :
    (groupListsByUser l).2 = l.filter (fun e => e.borrower_id == none) := by
  have := groupListsByUser_go_dropped l ([], [])
  simpa [groupListsByUser] using this

theorem groupListsByUser_go_keysNodup (l : List NList)
    (acc : List (Int × List NList) × List NList)
    (hacc : (acc.1.map Prod.fst).Nodup) :
    ((l.foldl
      (fun acc lst =>
        match lst.borrower_id with
        | some b => (insertGroup acc.1 b lst, acc.2)
        | none => (acc.1, acc.2 ++ [lst])) acc).1.map Prod.fst).Nodup := by
  induction l generalizing acc with
  | nil => simpa using hacc
  | cons x rest ih =>
    simp only [List.foldl_cons]
    cases hx : x.borrower_id with
    | none => simp only [hx]; exact ih _ hacc
    | some b' => simp only [hx]; exact ih _ (keysNodup_insertGroup _ _ _ hacc)

theorem groupListsByUser_keysNodup (l : List NList) :
    ((groupListsByUser l).1.map Prod.fst).Nodup :=
  groupListsByUser_go_keysNodup l ([], []) (by simp)

theorem groupListsByUser_go_perm (l : List NList)
    (acc : List (Int × List NList) × List NList) :
    ((l.foldl
      (fun acc lst =>
        match lst.borrower_id with
        | some b => (insertGroup acc.1 b lst, acc.2)
        | none => (acc.1, acc.2 ++ [lst])) acc).1.flatMap Prod.snd).Perm
      (acc.1.flatMap Prod.snd ++ l.filter (fun e => e.borrower_id.isSome)) := by
  induction l generalizing acc with
  | nil => simp
  | cons x rest ih =>
    simp only [List.foldl_cons, List.filter_cons]
    cases hx : x.borrower_id with
    | none =>
      simp only [hx, Option.isSome_none]
      simpa using ih (acc.1, acc.2 ++ [x])
    | some b' =>
      simp only [hx, Option.isSome_some]
      have h1 := ih (insertGroup acc.1 b' x, acc.2)
      have h2 : ((insertGroup acc.1 b' x).flatMap Prod.snd ++
          rest.filter (fun e => e.borrower_id.isSome)).Perm
          ((acc.1.flatMap Prod.snd ++ [x]) ++
            rest.filter (fun e => e.borrower_id.isSome)) :=
        List.Perm.append_right _ (flatMapSnd_insertGroup _ _ _)
      have h3 := h1.trans h2
      have h4 : (acc.1.flatMap Prod.snd ++ [x]) ++
          rest.filter (fun e => e.borrower_id.isSome) =
          acc.1.flatMap Prod.snd ++
            (x :: rest.filter (fun e => e.borrower_id.isSome)) := by
        rw [List.append_assoc]
        rfl
      rw [h4] at h3
      simpa using h3

theorem groupListsByUser_perm (l : List NList) :
    ((groupListsByUser l).1.flatMap Prod.snd).Perm
      (l.filter (fun e => e.borrower_id.isSome)) := by
  have := groupListsByUser_go_perm l ([], [])
  simpa [groupListsByUser] using this

theorem groupItems_go_noList (items : List NItem) (acc : ItemGroups) (b : Int) :
    lookupGroup (items.foldl
      (fun acc it =>
        if isOrphanKey it.list_id then
          match it.borrower_id with
          | some b => { acc with noListByUser := insertGroup acc.noListByUser b it }
          | none => { acc with dropped := acc.dropped ++ [it] }
        else
          match it.list_id with
          | some lid => { acc with byList := insertGroup acc.byList lid it }
          | none => acc) acc).noListByUser b =
      lookupGroup acc.noListByUser b ++
        items.filter (fun it => isOrphanKey it.list_id && it.borrower_id == some b) := by
  induction items generalizing acc with
  | nil => simp
  | cons x rest ih =>
    simp only [List.foldl_cons, List.filter_cons]
    by_cases ho : isOrphanKey x.list_id
    · rw [if_pos ho]
      cases hx : x.borrower_id with
      | none =>
        simp only [hx]
        rw [ih]
        simp [ho, hx]
      | some b' =>
        simp only [hx]
        rw [ih]
        by_cases hb : b' = b
        · subst hb
          simp [ho, hx, lookupGroup_insertGroup_same]
        · have hne : ¬ (b = b') := fun hh => hb hh.symm
          rw [lookupGroup_insertGroup_ne _ _ _ _ hne]
          simp [ho, hx, hb]
    · cases hx : x.list_id with
      | none =>
        exfalso
        rw [hx] at ho
        exact ho rfl
      | some lid' =>
        rw [hx] at ho
        rw [if_neg ho]
        rw [ih]
        have ho' : isOrphanKey (some lid') = false := by
          revert ho
          cases isOrphanKey (some lid') <;> simp
        simp [ho']

theorem groupItems_noList (items : List NItem) (b : Int) :
    lookupGroup (groupItems items).noListByUser b =
      items.filter (fun it => isOrphanKey it.list_id && it.borrower_id == some b) := by
  have := groupItems_go_noList items ⟨[], [], []⟩ b
  simpa [groupItems, lookupGroup] using this

theorem groupItems_go_byList (items : List NItem) (acc : ItemGroups) (lid : Int) :
    lookupGroup (items.foldl
      (fun acc it =>
        if isOrphanKey it.list_id then
          match it.borrower_id with
          | some b => { acc with noListByUser := insertGroup acc.noListByUser b it }
          | none => { acc with dropped := acc.dropped ++ [it] }
        else
          match it.list_id with
          | some lid => { acc with byList := insertGroup acc.byList lid it }
          | none => acc) acc).byList lid =
      lookupGroup acc.byList lid ++
        items.filter (fun it => !isOrphanKey it.list_id && it.list_id == some lid) := by
  induction items generalizing acc with
  | nil => simp
  | cons x rest ih =>
    simp only [List.foldl_cons, List.filter_cons]
    by_cases ho : isOrphanKey x.list_id
    · rw [if_pos ho]
      cases hx : x.borrower_id with
      | none =>
        simp only [hx]
        rw [ih]
        simp [ho]
      | some b' =>
        simp only [hx]
        rw [ih]
        simp [ho]
    · cases hx : x.list_id with
      | none =>
        exfalso
        rw [hx] at ho
        exact ho rfl
      | some lid' =>
        rw [hx] at ho
        rw [if_neg ho]
        rw [ih]
        have ho' : isOrphanKey (some lid') = false := by
          revert ho
          cases isOrphanKey (some lid') <;> simp
        by_cases hl : lid' = lid
        · subst hl
          simp [ho', lookupGroup_insertGroup_same]
        · have hne : ¬ (lid = lid') := fun hh => hl hh.symm
          rw [lookupGroup_insertGroup_ne _ _ _ _ hne]
          simp [ho', hl]

theorem groupItems_byList (items : List NItem) (lid : Int) :
    lookupGroup (groupItems items).byList lid =
      items.filter (fun it => !isOrphanKey it.list_id && it.list_id == some lid) := by
  have := groupItems_go_byList items ⟨[], [], []⟩ lid
  simpa [groupItems, lookupGroup] using this

theorem groupItems_go_dropped (items : List NItem) (acc : ItemGroups) :
    (items.foldl
      (fun acc it =>
        if isOrphanKey it.list_id then
          match it.borrower_id with
          | some b => { acc with noListByUser := insertGroup acc.noListByUser b it }
          | none => { acc with dropped := acc.dropped ++ [it] }
        else
          match it.list_id with
          | some lid => { acc with byList := insertGroup acc.byList lid it }
          | none => acc) acc).dropped =
      acc.dropped ++
        items.filter (fun it => isOrphanKey it.list_id && it.borrower_id == none) := by
  induction items generalizing acc with
  | nil => simp
  | cons x rest ih =>
    simp only [List.foldl_cons, List.filter_cons]
    by_cases ho : isOrphanKey x.list_id
    · rw [if_pos ho]
      cases hx : x.borrower_id with
      | none =>
        simp only [hx]
        rw [ih]
        simp [ho, hx]
      | some b' =>
        simp only [hx]
        rw [ih]
        simp [ho, hx]
    · cases hx : x.list_id with
      | none =>
        exfalso
        rw [hx] at ho
        exact ho rfl
      | some lid' =>
        rw [hx] at ho
        rw [if_neg ho]
        rw [ih]
        have ho' : isOrphanKey (some lid') = false := by
          revert ho
          cases isOrphanKey (some lid') <;> simp
        simp [ho']

theorem groupItems_dropped (items : List NItem) :
    (groupItems items).dropped =
      items.filter (fun it => isOrphanKey it.list_id && it.borrower_id == none) := by
  have := groupItems_go_dropped items ⟨[], [], []⟩
  simpa [groupItems] using this

/-!  ## Maximum id and allocator seed -/

theorem foldl_max_init (rest : List NList) (a : Int) :
    a ≤ rest.foldl (fun m e => max m e.list_id) a := by
  induction rest generalizing a with
  | nil => simp
  | cons x rs ih =>
    simp only [List.foldl_cons]
    exact le_trans (le_max_left a x.list_id) (ih _)

theorem foldl_max_mem (rest : List NList) (a : Int) (e : NList) (he : e ∈ rest) :
    e.list_id ≤ rest.foldl (fun m e => max m e.list_id) a := by
  induction rest generalizing a with
  | nil => simp at he
  | cons x rs ih =>
    simp only [List.foldl_cons]
    rcases List.mem_cons.mp he with h | h
    · subst h
      exact le_trans (le_max_right a e.list_id) (foldl_max_init _ _)
    · exact ih _ h

theorem le_maxExisting (l : List NList) (e : NList) (he : e ∈ l) :
    e.list_id ≤ maxExisting l := by
  cases l with
  | nil => simp at he
  | cons x rest =>
    rcases List.mem_cons.mp he with h | h
    · subst h
      exact foldl_max_init rest e.list_id
    · exact foldl_max_mem rest x.list_id e h

/-- With no explicit override, the allocator seed strictly exceeds every input
list id. -/
theorem lt_initialNextId (l : List NList) (e : NList) (he : e ∈ l) :
    e.list_id < initialNextId l none := by
  have hle := le_maxExisting l e he
  unfold initialNextId
  by_cases hm : maxExisting l ≠ 0
  · simp only [hm, if_pos]
    omega
  · simp only [hm, if_neg]
    push_neg at hm
    omega

/-!  ## Name-counter dictionary -/

theorem getCount_setCount_same (counts : List (String × Nat)) (s : String) (v : Nat) :
    getCount (setCount counts s v) s = v := by
  induction counts with
  | nil => simp [setCount, getCount]
  | cons p rest ih =>
    obtain ⟨k, w⟩ := p
    by_cases h : k = s
    · simp [setCount, getCount, h]
    · simp [setCount, getCount, h, ih]

theorem getCount_setCount_ne (counts : List (String × Nat)) (s s' : String) (v : Nat)
    (h : ¬ (s' = s)) :
    getCount (setCount counts s v) s' = getCount counts s' := by
  induction counts with
  | nil =>
    have : ¬ (s = s') := fun hh => h hh.symm
    simp [setCount, getCount, this]
  | cons p rest ih =>
    obtain ⟨k, w⟩ := p
    by_cases h0 : k = s
    · subst h0
      have : ¬ (k = s') := fun hh => h hh.symm
      simp [setCount, getCount, this]
    · simp [setCount, getCount, h0, ih]

/-!  ## Chunk membership -/

theorem chunkedF_mem (fuel : Nat) (seq : List α) (n : Nat) (c : List α)
    (hc : c ∈ chunkedF fuel seq n) : ∀ x ∈ c, x ∈ seq := by
  induction fuel generalizing seq n with
  | zero =>
    match seq, n with
    | _, 0 => simp [chunkedF] at hc
    | [], m + 1 => simp [chunkedF] at hc
    | x :: xs, m + 1 => simp [chunkedF] at hc
  | succ f ih =>
    match seq, n with
    | _, 0 => simp [chunkedF] at hc
    | [], m + 1 => simp [chunkedF] at hc
    | x :: xs, m + 1 =>
      rcases List.mem_cons.mp hc with hc | hc
      · subst hc
        intro y hy
        exact List.mem_of_mem_take hy
      · intro y hy
        exact List.mem_of_mem_drop (ih _ _ hc y hy)

theorem chunked_mem (seq : List α) (n : Nat) (c : List α) (hc : c ∈ chunked seq n) :
    ∀ x ∈ c, x ∈ seq :=
  chunkedF_mem seq.length seq n c hc

theorem chunked_ne_nil (seq : List α) (n : Nat) (hseq : seq ≠ []) (hn : 0 < n) :
    chunked seq n ≠ [] := by
  match seq, n with
  | [], _ => exact absurd rfl hseq
  | _, 0 => omega
  | x :: xs, m + 1 =>
    simp only [chunked, List.length_cons, chunkedF]
    exact List.cons_ne_nil _ _

/-!  ## Specification of the chunk-allocation loop -/

theorem allocChunks_spec (base : NList) (cs : List (List NItem)) (nid : Int)
    (counts : List (String × Nat)) :
    (allocChunks base cs nid counts).1.length = cs.length ∧
    (allocChunks base cs nid counts).2.2.1 = nid + cs.length ∧
    (allocChunks base cs nid counts).2.1.length = cs.length ∧
    (∀ i, i < cs.length →
      (allocChunks base cs nid counts).1.getD i dummyList =
        { base with
          list_id := nid + i
          name := mkChunkName base.name (getCount counts base.name + i) }) ∧
    (∀ s, getCount (allocChunks base cs nid counts).2.2.2 s =
      if s = base.name then getCount counts base.name + cs.length
      else getCount counts s) := by
  induction cs generalizing nid counts with
  | nil =>
    refine ⟨rfl, by simp [allocChunks], rfl, by intro i hi; simp at hi, ?_⟩
    intro s
    by_cases h : s = base.name <;> simp [allocChunks, h]
  | cons c cs ih =>
    obtain ⟨ih1, ih2, ih3, ih4, ih5⟩ :=
      ih (nid + 1) (setCount counts base.name (getCount counts base.name + 1))
    refine ⟨?_, ?_, ?_, ?_, ?_⟩
    · simp [allocChunks, ih1]
    · simp only [allocChunks, ih2, List.length_cons]
      push_cast
      ring
    · simp [allocChunks, ih3]
    · intro i hi
      match i with
      | 0 => simp [allocChunks]
      | j + 1 =>
        simp only [allocChunks, List.getD_cons_succ]
        rw [ih4 j (by simpa using hi)]
        rw [getCount_setCount_same]
        have hid : nid + 1 + (j : Int) = nid + ((j + 1 : Nat) : Int) := by
          push_cast
          ring
        have hct : getCount counts base.name + 1 + j = getCount counts base.name + (j + 1) := by
          omega
        rw [hid, hct]
    · intro s
      simp only [allocChunks]
      rw [ih5 s]
      by_cases h : s = base.name
      · subst h
        rw [if_pos rfl, if_pos rfl, getCount_setCount_same]
        simp only [List.length_cons]
        omega
      · rw [if_neg h, if_neg h, getCount_setCount_ne _ _ _ _ h]

/-- Every chunk written by the allocation loop is one of the input chunks. -/
theorem allocChunks_pairs_mem (base : NList) (cs : List (List NItem)) (nid : Int)
    (counts : List (String × Nat)) :
    ∀ p ∈ (allocChunks base cs nid counts).2.1, ∃ c ∈ cs, p.2 = c := by
  induction cs generalizing nid counts with
  | nil => intro p hp; simp [allocChunks] at hp
  | cons c cs ih =>
    intro p hp
    simp only [allocChunks, List.mem_cons] at hp
    rcases hp with hp | hp
    · exact ⟨c, List.mem_cons_self _ _, by rw [hp]⟩
    · obtain ⟨c', hc', he⟩ := ih _ _ p hp
      exact ⟨c', List.mem_cons_of_mem _ hc', he⟩

/-!  ## Specification of the per-owner list loop -/

/-- Number of chunks the rebalancer derives from one list record (zero when
the list is within the cap and passes through unsplit). -/
def numChunks (cap : Nat) (ibl : List (Int × List NItem)) (base : NList) : Nat :=
  if (sortedAssoc ibl base.list_id).length ≤ cap then 0
  else (chunked (sortedAssoc ibl base.list_id) cap).length

/-- Per-owner sequence of source records, one occurrence per derived chunk, in
derivation order. -/
def chunkSources (cap : Nat) (ibl : List (Int × List NItem)) (uls : List NList) :
    List NList :=
  uls.flatMap (fun base => List.replicate (numChunks cap ibl base) base)

theorem getD_replicate (n : Nat) (a d : α) (i : Nat) (hi : i < n) :
    (List.replicate n a).getD i d = a := by
  induction n generalizing i with
  | zero => omega
  | succ m ih =>
    match i with
    | 0 => rfl
    | j + 1 =>
      simp only [List.replicate_succ, List.getD_cons_succ]
      exact ih j (by omega)

theorem mem_sortedAssoc (ibl : List (Int × List NItem)) (lid : Int) (x : NItem) :
    x ∈ sortedAssoc ibl lid ↔ x ∈ lookupGroup ibl lid :=
  (List.perm_insertionSort itemLE (lookupGroup ibl lid)).mem_iff

theorem processLists_spec (cap : Nat) (ibl : List (Int × List NItem))
    (uls : List NList) (nid : Int) (counts : List (String × Nat)) (hist : List String)
    (hinv : ∀ s, getCount counts s = hist.count s + 1) :
    (processLists cap ibl uls nid counts).1 =
      uls.filter (fun b => decide ((sortedAssoc ibl b.list_id).length ≤ cap)) ∧
    (processLists cap ibl uls nid counts).2.2.2 =
      nid + (chunkSources cap ibl uls).length ∧
    (processLists cap ibl uls nid counts).2.1.length =
      (chunkSources cap ibl uls).length ∧
    (∀ i, i < (chunkSources cap ibl uls).length →
      (processLists cap ibl uls nid counts).2.1.getD i dummyList =
        { (chunkSources cap ibl uls).getD i dummyList with
          list_id := nid + i
          name := mkChunkName ((chunkSources cap ibl uls).getD i dummyList).name
            ((hist ++ ((chunkSources cap ibl uls).take i).map NList.name).count
              ((chunkSources cap ibl uls).getD i dummyList).name + 1) }) ∧
    (∀ p ∈ (processLists cap ibl uls nid counts).2.2.1,
      ∃ base ∈ uls, ∀ x ∈ p.2, x ∈ lookupGroup ibl base.list_id) := by
  induction uls generalizing nid counts hist with
  | nil =>
    refine ⟨rfl, by simp [processLists, chunkSources], by simp [processLists, chunkSources],
      ?_, ?_⟩
    · intro i hi
      simp [chunkSources] at hi
    · intro p hp
      simp [processLists] at hp
  | cons base rest ih =>
    by_cases hle : (sortedAssoc ibl base.list_id).length ≤ cap
    · -- pass-through branch
      obtain ⟨ih1, ih2, ih3, ih4, ih5⟩ := ih nid counts hist hinv
      have hnum : numChunks cap ibl base = 0 := by simp [numChunks, hle]
      have hsrc : chunkSources cap ibl (base :: rest) = chunkSources cap ibl rest := by
        simp [chunkSources, hnum]
      simp only [processLists, if_pos hle]
      refine ⟨?_, ?_, ?_, ?_, ?_⟩
      · simp [List.filter_cons, hle, ih1]
      · rw [hsrc]; exact ih2
      · rw [hsrc]; exact ih3
      · rw [hsrc]; exact ih4
      · intro p hp
        rcases List.mem_cons.mp hp with hp | hp
        · refine ⟨base, List.mem_cons_self _ _, ?_⟩
          intro x hx
          rw [hp] at hx
          exact (mem_sortedAssoc ibl base.list_id x).mp hx
        · obtain ⟨b', hb', hmem⟩ := ih5 p hp
          exact ⟨b', List.mem_cons_of_mem _ hb', hmem⟩
    · -- overflow branch
      obtain ⟨a1, a2, a3, a4, a5⟩ :=
        allocChunks_spec base (chunked (sortedAssoc ibl base.list_id) cap) nid counts
      have hinv' : ∀ s,
          getCount (allocChunks base (chunked (sortedAssoc ibl base.list_id) cap)
            nid counts).2.2.2 s =
          (hist ++ List.replicate
            (chunked (sortedAssoc ibl base.list_id) cap).length base.name).count s + 1 := by
        intro s
        rw [a5 s, List.count_append, List.count_replicate]
        by_cases h : s = base.name
        · subst h
          rw [if_pos rfl]
          simp only [beq_self_eq_true, if_pos]
          rw [hinv]
          omega
        · rw [if_neg h]
          have hb : (base.name == s) = false := beq_false_of_ne fun hh => h hh.symm
          rw [hb, if_neg (by simp), hinv]
      obtain ⟨ih1, ih2, ih3, ih4, ih5⟩ :=
        ih (allocChunks base (chunked (sortedAssoc ibl base.list_id) cap) nid counts).2.2.1
          (allocChunks base (chunked (sortedAssoc ibl base.list_id) cap) nid counts).2.2.2
          (hist ++ List.replicate
            (chunked (sortedAssoc ibl base.list_id) cap).length base.name) hinv'
      have hnum : numChunks cap ibl base =
          (chunked (sortedAssoc ibl base.list_id) cap).length := by
        simp [numChunks, hle]
      have hsrc : chunkSources cap ibl (base :: rest) =
          List.replicate (chunked (sortedAssoc ibl base.list_id) cap).length base ++
            chunkSources cap ibl rest := by
        simp [chunkSources, hnum]
      simp only [processLists, if_neg hle]
      refine ⟨?_, ?_, ?_, ?_, ?_⟩
      · simp [List.filter_cons, hle, ih1]
      · rw [hsrc, ih2, a2]
        simp only [List.length_append, List.length_replicate]
        push_cast
        ring
      · rw [hsrc]
        simp only [List.length_append, a1, ih3, List.length_replicate]
      · intro i hi
        rw [hsrc] at hi ⊢
        simp only [List.length_append, List.length_replicate] at hi
        by_cases hilt : i < (chunked (sortedAssoc ibl base.list_id) cap).length
        · rw [List.getD_append _ _ _ _ (by rw [a1]; exact hilt),
            List.getD_append _ _ _ _ (by rw [List.length_replicate]; exact hilt)]
          rw [a4 i hilt, getD_replicate _ _ _ _ hilt]
          have htake : (List.replicate
              (chunked (sortedAssoc ibl base.list_id) cap).length base ++
              chunkSources cap ibl rest).take i =
              List.replicate i base := by
            rw [List.take_append_eq_append_take]
            rw [List.take_replicate, min_eq_left (le_of_lt hilt)]
            have hz : i - (List.replicate
                (chunked (sortedAssoc ibl base.list_id) cap).length base).length = 0 := by
              simp only [List.length_replicate]
              omega
            rw [hz]
            simp
          rw [htake, List.map_replicate, List.count_append, List.count_replicate]
          simp only [beq_self_eq_true, if_pos]
          rw [hinv base.name]
          have harith : List.count base.name hist + 1 + i =
              List.count base.name hist + i + 1 := by omega
          rw [harith]
        · have hlen : (chunked (sortedAssoc ibl base.list_id) cap).length ≤ i := by omega
          rw [List.getD_append_right _ _ _ _ (by rw [a1]; exact hlen),
            List.getD_append_right _ _ _ _ (by rw [List.length_replicate]; exact hlen)]
          rw [a1, List.length_replicate]
          rw [ih4 (i - (chunked (sortedAssoc ibl base.list_id) cap).length) (by omega)]
          have htake : ((List.replicate
              (chunked (sortedAssoc ibl base.list_id) cap).length base ++
              chunkSources cap ibl rest).take i).map NList.name =
              List.replicate
                (chunked (sortedAssoc ibl base.list_id) cap).length base.name ++
              ((chunkSources cap ibl rest).take
                (i - (chunked (sortedAssoc ibl base.list_id) cap).length)).map
                  NList.name := by
            rw [List.take_append_eq_append_take]
            rw [List.take_replicate, min_eq_right hlen]
            simp only [List.length_replicate, List.map_append, List.map_replicate]
          rw [htake]
          have hid : (allocChunks base (chunked (sortedAssoc ibl base.list_id) cap)
              nid counts).2.2.1 +
              ((i - (chunked (sortedAssoc ibl base.list_id) cap).length : Nat) : Int) =
              nid + (i : Int) := by
            rw [a2]
            push_cast [Nat.cast_sub hlen]
            ring
          rw [hid, List.append_assoc]
      · intro p hp
        rcases List.mem_append.mp hp with hp | hp
        · obtain ⟨c, hc, he⟩ := allocChunks_pairs_mem base _ nid counts p hp
          refine ⟨base, List.mem_cons_self _ _, ?_⟩
          intro x hx
          rw [he] at hx
          have hxa := chunked_mem (sortedAssoc ibl base.list_id) cap c hc x hx
          exact (mem_sortedAssoc ibl base.list_id x).mp hxa
        · obtain ⟨b', hb', hmem⟩ := ih5 p hp
          exact ⟨b', List.mem_cons_of_mem _ hb', hmem⟩

theorem processLists_ne_both_empty (cap : Nat) (ibl : List (Int × List NItem))
    (uls : List NList) (nid : Int) (counts : List (String × Nat))
    (hcap : 0 < cap) (h : uls ≠ []) :
    ((processLists cap ibl uls nid counts).1.isEmpty &&
      (processLists cap ibl uls nid counts).2.1.isEmpty) = false := by
  match uls with
  | [] => exact absurd rfl h
  | base :: rest =>
    by_cases hle : (sortedAssoc ibl base.list_id).length ≤ cap
    · simp [processLists, if_pos hle]
    · have hne : sortedAssoc ibl base.list_id ≠ [] := by
        intro hh
        rw [hh] at hle
        simp at hle
      have hcs := chunked_ne_nil (sortedAssoc ibl base.list_id) cap hne hcap
      have ha := (allocChunks_spec base (chunked (sortedAssoc ibl base.list_id) cap)
        nid counts).1
      have hane : (allocChunks base (chunked (sortedAssoc ibl base.list_id) cap)
          nid counts).1 ≠ [] := by
        intro hh
        rw [hh] at ha
        exact hcs (List.length_eq_zero.mp ha.symm)
      simp only [processLists, if_neg hle]
      rw [Bool.and_eq_false_iff]
      right
      rw [List.isEmpty_eq_false_iff_exists_mem]
      obtain ⟨x, hx⟩ := List.exists_mem_of_ne_nil _ hane
      exact ⟨x, List.mem_append_left _ hx⟩

/-- All fresh (rebalanced) list ids across the users, in emission order. -/
def allNewIds (us : List UserOutput) : List Int :=
  us.flatMap (fun u => u.new_lists_out.map (fun e => e.list_id))

/-- All pass-through list records across the users, in emission order. -/
def allPrimary (us : List UserOutput) : List NList :=
  us.flatMap (fun u => u.lists_out)

theorem getD_map_list_id (l : List NList) (i : Nat) (hi : i < l.length) :
    ((l.map (fun e => e.list_id)).getD i 0) = (l.getD i dummyList).list_id := by
  rw [List.getD_eq_getElem _ _ (by simpa using hi), List.getD_eq_getElem _ _ hi]
  simp

theorem processUsers_spec (cap : Nat) (ibl : List (Int × List NItem))
    (nlbu : List (Int × List NItem)) (entries : List (Int × List NList)) (nid : Int) :
    (∀ u ∈ (processUsers cap ibl nlbu entries nid).1,
      ∃ e ∈ entries, ∃ nid' : Int, u.borrower = e.1 ∧
        u.lists_out = (processLists cap ibl e.2 nid' []).1 ∧
        u.new_lists_out = (processLists cap ibl e.2 nid' []).2.1 ∧
        u.items_out = (processLists cap ibl e.2 nid' []).2.2.1 ∧
        u.no_lists = chunked (lookupGroup nlbu e.1) cap) ∧
    (processUsers cap ibl nlbu entries nid).2 =
      nid + (allNewIds (processUsers cap ibl nlbu entries nid).1).length ∧
    (∀ j, j < (allNewIds (processUsers cap ibl nlbu entries nid).1).length →
      (allNewIds (processUsers cap ibl nlbu entries nid).1).getD j 0 = nid + j) ∧
    (allPrimary (processUsers cap ibl nlbu entries nid).1).Sublist
      (entries.flatMap Prod.snd) ∧
    (0 < cap → ∀ e ∈ entries, e.2 ≠ [] →
      ∃ u ∈ (processUsers cap ibl nlbu entries nid).1,
        u.borrower = e.1 ∧ u.no_lists = chunked (lookupGroup nlbu e.1) cap) := by
  induction entries generalizing nid with
  | nil =>
    refine ⟨by intro u hu; simp [processUsers] at hu, by simp [processUsers, allNewIds], ?_, ?_, ?_⟩
    · intro j hj
      simp [processUsers, allNewIds] at hj
    · simp [processUsers, allPrimary]
    · intro _ e he
      simp at he
  | cons entry rest ih =>
    obtain ⟨b, uls⟩ := entry
    have hinv0 : ∀ s, getCount ([] : List (String × Nat)) s =
        ([] : List String).count s + 1 := by intro s; simp [getCount]
    obtain ⟨pl1, pl2, pl3, pl4, pl5⟩ := processLists_spec cap ibl uls nid [] [] hinv0
    by_cases hskip : ((processLists cap ibl uls nid []).1.isEmpty &&
        (processLists cap ibl uls nid []).2.1.isEmpty) = true
    · -- the `continue` branch: no chunks were produced, so the counter is unchanged
      have heq : processUsers cap ibl nlbu ((b, uls) :: rest) nid =
          processUsers cap ibl nlbu rest ((processLists cap ibl uls nid []).2.2.2) := by
        simp only [processUsers]
        rw [if_pos hskip]
      have hlen0 : (chunkSources cap ibl uls).length = 0 := by
        rw [Bool.and_eq_true] at hskip
        have hh := hskip.2
        rw [List.isEmpty_iff] at hh
        rw [← pl3, hh]
        rfl
      have hnid : (processLists cap ibl uls nid []).2.2.2 = nid := by
        rw [pl2, hlen0]
        simp
      obtain ⟨ih1, ih2, ih3, ih4, ih5⟩ := ih ((processLists cap ibl uls nid []).2.2.2)
      refine ⟨?_, ?_, ?_, ?_, ?_⟩
      · intro u hu
        rw [heq] at hu
        obtain ⟨e, he, hrest⟩ := ih1 u hu
        exact ⟨e, List.mem_cons_of_mem _ he, hrest⟩
      · rw [heq, ih2, hnid]
      · intro j hj
        rw [heq] at hj ⊢
        rw [ih3 j hj, hnid]
      · rw [heq]
        refine ih4.trans ?_
        rw [List.flatMap_cons]
        exact List.sublist_append_right _ _
      · intro hcap e he hene
        rcases List.mem_cons.mp he with he | he
        · exfalso
          have hne := processLists_ne_both_empty cap ibl uls nid [] hcap
            (by rw [he] at hene; exact hene)
          rw [hne] at hskip
          exact Bool.false_ne_true hskip
        · obtain ⟨u, hu, hub, hun⟩ := ih5 hcap e he hene
          refine ⟨u, ?_, hub, hun⟩
          rw [heq]
          exact hu
    · -- the user is emitted
      rw [Bool.not_eq_true] at hskip
      have heq : processUsers cap ibl nlbu ((b, uls) :: rest) nid =
          ({ borrower := b
             lists_out := (processLists cap ibl uls nid []).1
             new_lists_out := (processLists cap ibl uls nid []).2.1
             items_out := (processLists cap ibl uls nid []).2.2.1
             no_lists := chunked (lookupGroup nlbu b) cap } ::
            (processUsers cap ibl nlbu rest
              ((processLists cap ibl uls nid []).2.2.2)).1,
           (processUsers cap ibl nlbu rest
             ((processLists cap ibl uls nid []).2.2.2)).2) := by
        simp only [processUsers]
        rw [if_neg (by simp [hskip])]
      obtain ⟨ih1, ih2, ih3, ih4, ih5⟩ := ih ((processLists cap ibl uls nid []).2.2.2)
      refine ⟨?_, ?_, ?_, ?_, ?_⟩
      · intro u hu
        rw [heq] at hu
        rcases List.mem_cons.mp hu with hu | hu
        · refine ⟨(b, uls), List.mem_cons_self _ _, nid, ?_⟩
          rw [hu]
          exact ⟨rfl, rfl, rfl, rfl, rfl⟩
        · obtain ⟨e, he, hrest⟩ := ih1 u hu
          exact ⟨e, List.mem_cons_of_mem _ he, hrest⟩
      · rw [heq]
        simp only [allNewIds, List.flatMap_cons]
        rw [List.length_append, ih2]
        simp only [allNewIds]
        rw [List.length_map, pl3, pl2]
        push_cast
        ring
      · intro j hj
        rw [heq] at hj ⊢
        simp only [allNewIds, List.flatMap_cons] at hj ⊢
        rw [List.length_append, List.length_map, pl3] at hj
        by_cases hjlt : j < (chunkSources cap ibl uls).length
        · rw [List.getD_append _ _ _ _ (by rw [List.length_map, pl3]; exact hjlt)]
          rw [getD_map_list_id _ _ (by rw [pl3]; exact hjlt)]
          rw [pl4 j hjlt]
        · have hge : (chunkSources cap ibl uls).length ≤ j := by omega
          rw [List.getD_append_right _ _ _ _ (by rw [List.length_map, pl3]; exact hge)]
          rw [List.length_map, pl3]
          have hih := ih3 (j - (chunkSources cap ibl uls).length) (by
            simp only [allNewIds] at hj ⊢
            omega)
          simp only [allNewIds] at hih
          rw [hih, pl2]
          push_cast [Nat.cast_sub hge]
          ring
      · rw [heq]
        simp only [allPrimary, List.flatMap_cons]
        refine List.Sublist.append ?_ ih4
        rw [pl1]
        exact List.filter_sublist uls
      · intro hcap e he hene
        rcases List.mem_cons.mp he with he | he
        · refine ⟨⟨b, (processLists cap ibl uls nid []).1,
            (processLists cap ibl uls nid []).2.1,
            (processLists cap ibl uls nid []).2.2.1,
            chunked (lookupGroup nlbu b) cap⟩, ?_, ?_, ?_⟩
          · rw [heq]
            exact List.mem_cons_self _ _
          · rw [he]
          · rw [he]
        · obtain ⟨u, hu, hub, hun⟩ := ih5 hcap e he hene
          refine ⟨u, ?_, hub, hun⟩
          rw [heq]
          exact List.mem_cons_of_mem _ hu

/-!  ## Assembly lemmas at the `split_and_write` level -/

theorem split_users (lists_in : List NList) (items_in : List NItem)
    (cap : Nat) (sid : Option Int) :
    (split_and_write lists_in items_in cap sid).users =
      (processUsers cap (groupItems items_in).byList (groupItems items_in).noListByUser
        (groupListsByUser lists_in).1 (initialNextId lists_in sid)).1 := rfl

theorem split_droppedLists (lists_in : List NList) (items_in : List NItem)
    (cap : Nat) (sid : Option Int) :
    (split_and_write lists_in items_in cap sid).droppedLists =
      (groupListsByUser lists_in).2 := rfl

theorem split_droppedItems (lists_in : List NList) (items_in : List NItem)
    (cap : Nat) (sid : Option Int) :
    (split_and_write lists_in items_in cap sid).droppedItems =
      (groupItems items_in).dropped := rfl

theorem flatMap_append_perm (us : List α) (f g : α → List β) :
    (us.flatMap (fun u => f u ++ g u)).Perm (us.flatMap f ++ us.flatMap g) := by
  induction us with
  | nil => simp
  | cons u rest ih =>
    simp only [List.flatMap_cons]
    have h1 : ((f u ++ g u) ++ rest.flatMap (fun u => f u ++ g u)).Perm
        ((f u ++ g u) ++ (rest.flatMap f ++ rest.flatMap g)) :=
      List.Perm.append_left _ ih
    refine h1.trans ?_
    have h2 : (g u ++ (rest.flatMap f ++ rest.flatMap g)).Perm
        (rest.flatMap f ++ (g u ++ rest.flatMap g)) := by
      have h3 : (g u ++ (rest.flatMap f ++ rest.flatMap g)).Perm
          ((rest.flatMap f ++ rest.flatMap g) ++ g u) := List.perm_append_comm
      refine h3.trans ?_
      rw [List.append_assoc]
      exact List.Perm.append_left _ List.perm_append_comm
    have h4 : ((f u ++ g u) ++ (rest.flatMap f ++ rest.flatMap g)) =
        f u ++ (g u ++ (rest.flatMap f ++ rest.flatMap g)) := by
      rw [List.append_assoc]
    rw [h4]
    have h5 := List.Perm.append_left (f u) h2
    refine h5.trans ?_
    rw [← List.append_assoc]

/-- The emitted ids are a permutation of (pass-through ids ++ fresh ids). -/
theorem emittedIds_perm_split (r : SplitResult) :
    (emittedIds r).Perm
      ((r.users.flatMap (fun u => u.lists_out.map (fun e => e.list_id))) ++
        allNewIds r.users) := by
  unfold emittedIds allNewIds
  exact flatMap_append_perm r.users _ _

theorem eq_range_map_of_getD (l : List Int) (n : Int)
    (h : ∀ j, j < l.length → l.getD j 0 = n + j) :
    l = List.map (fun j : Nat => n + (j : Int)) (List.range l.length) := by
  apply List.ext_getElem
  · simp
  · intro i h1 h2
    have hh := h i h1
    rw [List.getD_eq_getElem _ _ h1] at hh
    simp only [List.getElem_map, List.getElem_range]
    exact hh

theorem nodup_of_getD_range (l : List Int) (n : Int)
    (h : ∀ j, j < l.length → l.getD j 0 = n + j) : l.Nodup := by
  rw [eq_range_map_of_getD l n h]
  refine List.Nodup.map ?_ (List.nodup_range _)
  intro a b hab
  simp only at hab
  omega

theorem le_of_mem_getD_range (l : List Int) (n : Int)
    (h : ∀ j, j < l.length → l.getD j 0 = n + j) (x : Int) (hx : x ∈ l) : n ≤ x := by
  rw [eq_range_map_of_getD l n h] at hx
  obtain ⟨j, _, hj⟩ := List.mem_map.mp hx
  omega

/-- Every pass-through record of the output is one of the input records (with
an owner). -/
theorem allPrimary_mem_input (lists_in : List NList) (items_in : List NItem)
    (cap : Nat) (sid : Option Int) (e : NList)
    (he : e ∈ allPrimary (split_and_write lists_in items_in cap sid).users) :
    e ∈ lists_in ∧ e.borrower_id.isSome := by
  rw [split_users] at he
  obtain ⟨_, _, _, pu4, _⟩ := processUsers_spec cap (groupItems items_in).byList
    (groupItems items_in).noListByUser (groupListsByUser lists_in).1
    (initialNextId lists_in sid)
  have h1 := pu4.mem he
  have h2 := (groupListsByUser_perm lists_in).mem_iff.mp h1
  have h3 := List.mem_filter.mp h2
  exact ⟨h3.1, by simpa using h3.2⟩

/-!  ## Decimal representations are never empty -/

theorem toDigitsCore_ne_nil (base fuel n : Nat) (ds : List Char) (h : ds ≠ []) :
    Nat.toDigitsCore base fuel n ds ≠ [] := by
  induction fuel generalizing n ds with
  | zero => exact h
  | succ f ih =>
    simp only [Nat.toDigitsCore]
    by_cases h0 : n / base = 0
    · simp [h0]
    · rw [if_neg h0]
      exact ih _ _ (by simp)

theorem toDigits_ne_nil (base n : Nat) : Nat.toDigits base n ≠ [] := by
  unfold Nat.toDigits
  simp only [Nat.toDigitsCore]
  by_cases h0 : n / base = 0
  · simp [h0]
  · rw [if_neg h0]
    exact toDigitsCore_ne_nil _ _ _ _ (by simp)

theorem nat_repr_ne_empty (n : Nat) : Nat.repr n ≠ "" := by
  intro h
  have hd : Nat.toDigits 10 n = [] := by
    have hc := congrArg String.data h
    simpa [Nat.repr, List.asString] using hc
  exact toDigits_ne_nil 10 n hd

theorem int_toString_ne_empty (n : Int) : toString n ≠ "" := by
  cases n with
  | ofNat m =>
    show Int.repr (Int.ofNat m) ≠ ""
    simp only [Int.repr]
    exact nat_repr_ne_empty m
  | negSucc m =>
    show Int.repr (Int.negSucc m) ≠ ""
    simp only [Int.repr]
    intro h
    have hc := congrArg String.data h
    rw [String.data_append] at hc
    simp at hc

/-!  ## The claims -/

/-- C1: the specification says that when several primary (unsplit) lists of
one owner share a trimmed name, each is renamed to the base name plus a
1-based rank suffix before `lists_1.csv` is written, and the repository
defines `ensure_unique_names` for exactly this purpose — but
`split_and_write_lists_and_items` never invokes it (nor does anything else).
At the spec's own scenario (owner 3, two lists both named "Favorites", two
items each, cap 5) the emitted `lists_1.csv` rows keep the duplicate name,
while `ensure_unique_names` applied to those records would have produced the
names the specification expects. -/
theorem C1_duplicate_primary_names_not_renamed :
    ((split_and_write
        [⟨10, some 3, "Favorites", "", "", "", 0⟩, ⟨11, some 3, "Favorites", "", "", "", 0⟩]
        [⟨some 10, "a", "", none⟩, ⟨some 10, "b", "", none⟩,
          ⟨some 11, "c", "", none⟩, ⟨some 11, "d", "", none⟩] 5 none).users.map
      (fun u => u.lists_out.map (fun e => e.name))) = [["Favorites", "Favorites"]] ∧
    (ensure_unique_names
        [⟨10, some 3, "Favorites", "", "", "", 0⟩, ⟨11, some 3, "Favorites", "", "", "", 0⟩]
        255).map (fun e => e.name) = ["Favorites (1)", "Favorites (2)"] :=
  ⟨by decide, by decide⟩

/-- C8 counterexample: a list record whose ids are legitimately zero (owner id
0, list id 0) is emitted into `lists_1.csv` with empty id and owner cells —
`e.get(...) or ""` renders 0 as the empty string, not as the digit zero as the
claim states. -/
theorem C8_counterexample_zero_renders_empty :
    ((split_and_write [⟨0, some 0, "Z", "", "", "", 0⟩] [] 5 none).users.map
      (fun u => u.lists_out.map renderListRow)) =
      [[["", "", "Z", "", "", "", "0"]]] ∧ ("" : String) ≠ "0" :=
  ⟨by decide, by decide⟩

/-- C8 amended: in every rendered CSV row the owner id and list id cells are
the empty string exactly when the underlying value is zero or unset — a
legitimately zero id renders as the empty string (indistinguishable from an
unset one), never as the digit zero. -/
theorem C8_id_cells_blank_iff_zero_or_unset :
    (∀ e : NList,
      ((renderListRow e).getD 0 "" = "" ↔ e.list_id = 0) ∧
      ((renderListRow e).getD 1 "" = "" ↔
        (e.borrower_id = none ∨ e.borrower_id = some 0))) ∧
    (∀ it : NItem,
      (renderItemRow it).getD 0 "" = "" ↔
        (it.list_id = none ∨ it.list_id = some 0)) := by
  constructor
  · intro e
    constructor
    · simp only [renderListRow, List.getD_cons_zero, orBlankInt]
      constructor
      · intro h
        by_contra hh
        rw [if_neg hh] at h
        exact int_toString_ne_empty _ h
      · intro h
        rw [if_pos h]
    · simp only [renderListRow, List.getD_cons_succ, List.getD_cons_zero]
      cases hb : e.borrower_id with
      | none => simp [orBlankOptInt]
      | some m =>
        simp only [orBlankOptInt, orBlankInt]
        constructor
        · intro h
          by_contra hh
          simp only [reduceCtorEq, false_or, Option.some.injEq] at hh
          rw [if_neg hh] at h
          exact int_toString_ne_empty _ h
        · intro h
          rcases h with h | h
          · cases h
          · rw [if_pos (Option.some.injEq _ _ ▸ h)]
  · intro it
    cases hl : it.list_id with
    | none => simp [renderItemRow, hl]
    | some m =>
      simp only [renderItemRow, List.getD_cons_zero, orBlankInt, hl]
      constructor
      · intro h
        by_contra hh
        simp only [reduceCtorEq, false_or, Option.some.injEq] at hh
        rw [if_neg hh] at h
        exact int_toString_ne_empty _ h
      · intro h
        rcases h with h | h
        · cases h
        · rw [if_pos (Option.some.injEq _ _ ▸ h)]

theorem groupListsByUser_mem_borrower (lists_in : List NList)
    (entry : Int × List NList) (hentry : entry ∈ (groupListsByUser lists_in).1)
    (x : NList) (hx : x ∈ entry.2) : x.borrower_id = some entry.1 := by
  have hlk := lookupGroup_of_mem _ (groupListsByUser_keysNodup lists_in) entry hentry
  rw [groupListsByUser_lookup] at hlk
  rw [← hlk] at hx
  have hf := List.mem_filter.mp hx
  simpa using hf.2

theorem groupListsByUser_mem_input (lists_in : List NList)
    (entry : Int × List NList) (hentry : entry ∈ (groupListsByUser lists_in).1)
    (x : NList) (hx : x ∈ entry.2) : x ∈ lists_in := by
  have hlk := lookupGroup_of_mem _ (groupListsByUser_keysNodup lists_in) entry hentry
  rw [groupListsByUser_lookup] at hlk
  rw [← hlk] at hx
  exact (List.mem_filter.mp hx).1

theorem chunkSources_mem (cap : Nat) (ibl : List (Int × List NItem))
    (uls : List NList) (x : NList) (hx : x ∈ chunkSources cap ibl uls) : x ∈ uls := by
  simp only [chunkSources, List.mem_flatMap] at hx
  obtain ⟨base, hb, hrep⟩ := hx
  rw [List.eq_of_mem_replicate hrep]
  exact hb

theorem groupListsByUser_go_fst_congr (l : List NList)
    (acc acc' : List (Int × List NList) × List NList) (h : acc.1 = acc'.1) :
    (l.foldl
      (fun acc lst =>
        match lst.borrower_id with
        | some b => (insertGroup acc.1 b lst, acc.2)
        | none => (acc.1, acc.2 ++ [lst])) acc).1 =
    (l.foldl
      (fun acc lst =>
        match lst.borrower_id with
        | some b => (insertGroup acc.1 b lst, acc.2)
        | none => (acc.1, acc.2 ++ [lst])) acc').1 := by
  induction l generalizing acc acc' with
  | nil => exact h
  | cons x rest ih =>
    simp only [List.foldl_cons]
    cases hx : x.borrower_id with
    | none => exact ih _ _ h
    | some b => exact ih _ _ (by rw [h])

/-- Dropping the ownerless lists does not change the owner grouping. -/
theorem groupListsByUser_filter_isSome (l : List NList) :
    (groupListsByUser (l.filter (fun e => e.borrower_id.isSome))).1 =
      (groupListsByUser l).1 := by
  suffices h : ∀ acc : List (Int × List NList) × List NList,
      ((l.filter (fun e => e.borrower_id.isSome)).foldl
        (fun acc lst =>
          match lst.borrower_id with
          | some b => (insertGroup acc.1 b lst, acc.2)
          | none => (acc.1, acc.2 ++ [lst])) acc).1 =
      (l.foldl
        (fun acc lst =>
          match lst.borrower_id with
          | some b => (insertGroup acc.1 b lst, acc.2)
          | none => (acc.1, acc.2 ++ [lst])) acc).1 by
    exact h ([], [])
  induction l with
  | nil => intro acc; rfl
  | cons x rest ih =>
    intro acc
    simp only [List.filter_cons]
    cases hx : x.borrower_id with
    | none =>
      simp only [hx, Option.isSome_none]
      rw [if_neg (by simp)]
      rw [ih acc]
      simp only [List.foldl_cons, hx]
      exact groupListsByUser_go_fst_congr rest _ _ rfl
    | some b =>
      rw [if_pos (show (some b : Option Int).isSome = true from rfl)]
      simp only [List.foldl_cons, hx]
      exact ih _

/-- C9: a list record whose `borrower_id` is `None` — the splitter's notion of
an unresolvable owner — is dropped with a warning rather than being grouped or
emitted anywhere, and the grouping of the remaining lists is unchanged.
Within the full pipeline `normalize_list_row` always supplies an integer owner
id (an unparseable raw owner becomes 0 and is grouped under owner 0), so this
branch concerns records that reach the splitter without normalization. -/
theorem C9_ownerless_list_dropped (lists_in : List NList) (items_in : List NItem)
    (cap : Nat) (sid : Option Int) (l : NList)
    (hmem : l ∈ lists_in) (hnone : l.borrower_id = none) :
    l ∈ (split_and_write lists_in items_in cap sid).droppedLists ∧
    (∀ entry ∈ (groupListsByUser lists_in).1, l ∉ entry.2) ∧
    (∀ u ∈ (split_and_write lists_in items_in cap sid).users,
      l ∉ u.lists_out ∧ l ∉ u.new_lists_out) ∧
    (groupListsByUser (lists_in.filter (fun e => e.borrower_id.isSome))).1 =
      (groupListsByUser lists_in).1 := by
  have hnotin : ∀ entry ∈ (groupListsByUser lists_in).1, l ∉ entry.2 := by
    intro entry hentry hl
    have := groupListsByUser_mem_borrower lists_in entry hentry l hl
    rw [hnone] at this
    cases this
  refine ⟨?_, hnotin, ?_, groupListsByUser_filter_isSome lists_in⟩
  · rw [split_droppedLists, groupListsByUser_dropped]
    rw [List.mem_filter]
    exact ⟨hmem, by simp [hnone]⟩
  · intro u hu
    rw [split_users] at hu
    obtain ⟨pu1, _, _, _, _⟩ := processUsers_spec cap (groupItems items_in).byList
      (groupItems items_in).noListByUser (groupListsByUser lists_in).1
      (initialNextId lists_in sid)
    obtain ⟨e, he, nid', hb, hlo, hnlo, _, _⟩ := pu1 u hu
    have hinv0 : ∀ s, getCount ([] : List (String × Nat)) s =
        ([] : List String).count s + 1 := by intro s; simp [getCount]
    obtain ⟨pl1, _, pl3, pl4, _⟩ :=
      processLists_spec cap (groupItems items_in).byList e.2 nid' [] [] hinv0
    constructor
    · intro hl
      rw [hlo, pl1] at hl
      exact hnotin e he ((List.filter_sublist e.2).mem hl)
    · intro hl
      rw [hnlo] at hl
      obtain ⟨i, hi, hieq⟩ := List.mem_iff_getElem.mp hl
      have hilt : i < (chunkSources cap (groupItems items_in).byList e.2).length := by
        rw [← pl3]
        exact hi
      have hgd := pl4 i hilt
      rw [List.getD_eq_getElem _ _ hi] at hgd
      rw [hieq] at hgd
      have hsrcmem : (chunkSources cap (groupItems items_in).byList e.2).getD i dummyList ∈
          chunkSources cap (groupItems items_in).byList e.2 := by
        rw [List.getD_eq_getElem _ _ hilt]
        exact List.getElem_mem _
      have hbase := chunkSources_mem _ _ _ _ hsrcmem
      have hbor := groupListsByUser_mem_borrower lists_in e he _ hbase
      have : l.borrower_id = some e.1 := by
        rw [hgd]
        exact hbor
      rw [hnone] at this
      cases this

/-- C10: an item whose normalized `list_id` is a nonzero integer matching no
input list's id silently vanishes: it is written into no `list_items` file and
no `no_lists` file of any owner, it is not re-filed as an orphan, and it is
not reported (the dropped-with-warning set contains only ownerless orphans). -/
theorem C10_unmatched_item_vanishes (lists_in : List NList) (items_in : List NItem)
    (cap : Nat) (sid : Option Int) (it : NItem) (n : Int)
    (hmem : it ∈ items_in) (hlid : it.list_id = some n) (hnz : n ≠ 0)
    (hnomatch : ∀ l ∈ lists_in, l.list_id ≠ n) :
    (∀ u ∈ (split_and_write lists_in items_in cap sid).users,
      (∀ p ∈ u.items_out, it ∉ p.2) ∧ (∀ c ∈ u.no_lists, it ∉ c)) ∧
    it ∉ (split_and_write lists_in items_in cap sid).droppedItems := by
  have hnorph : isOrphanKey it.list_id = false := by
    rw [hlid]
    simpa [isOrphanKey] using hnz
  constructor
  · intro u hu
    rw [split_users] at hu
    obtain ⟨pu1, _, _, _, _⟩ := processUsers_spec cap (groupItems items_in).byList
      (groupItems items_in).noListByUser (groupListsByUser lists_in).1
      (initialNextId lists_in sid)
    obtain ⟨e, he, nid', hb, hlo, hnlo, hio, hnol⟩ := pu1 u hu
    have hinv0 : ∀ s, getCount ([] : List (String × Nat)) s =
        ([] : List String).count s + 1 := by intro s; simp [getCount]
    obtain ⟨_, _, _, _, pl5⟩ :=
      processLists_spec cap (groupItems items_in).byList e.2 nid' [] [] hinv0
    constructor
    · intro p hp hitp
      rw [hio] at hp
      obtain ⟨base, hbase, hsub⟩ := pl5 p hp
      have hlk := hsub it hitp
      rw [groupItems_byList] at hlk
      have hf := (List.mem_filter.mp hlk).2
      rw [hlid] at hf
      simp at hf
      exact hnomatch base (groupListsByUser_mem_input lists_in e he base hbase) hf.2.symm
    · intro c hc hitc
      rw [hnol] at hc
      have hlk := chunked_mem _ _ _ hc it hitc
      rw [groupItems_noList] at hlk
      have hf := (List.mem_filter.mp hlk).2
      rw [hnorph] at hf
      simp at hf
  · intro hdrop
    rw [split_droppedItems, groupItems_dropped] at hdrop
    have hf := (List.mem_filter.mp hdrop).2
    rw [hnorph] at hf
    simp at hf

/-- C10 witness: a concrete item pointing at the nonexistent list id 5
vanishes from the run's output. -/
theorem C10_unmatched_item_vanishes_witness :
    (⟨some 5, "x", "", none⟩ : NItem) ∈ [(⟨some 5, "x", "", none⟩ : NItem)] ∧
    (⟨some 5, "x", "", none⟩ : NItem).list_id = some 5 ∧ (5 : Int) ≠ 0 ∧
    (∀ l ∈ [(⟨1, some 7, "L", "", "", "", 0⟩ : NList)], l.list_id ≠ 5) ∧
    ((∀ u ∈ (split_and_write [⟨1, some 7, "L", "", "", "", 0⟩]
        [⟨some 5, "x", "", none⟩] 3 none).users,
      (∀ p ∈ u.items_out, (⟨some 5, "x", "", none⟩ : NItem) ∉ p.2) ∧
      (∀ c ∈ u.no_lists, (⟨some 5, "x", "", none⟩ : NItem) ∉ c)) ∧
    (⟨some 5, "x", "", none⟩ : NItem) ∉
      (split_and_write [⟨1, some 7, "L", "", "", "", 0⟩]
        [⟨some 5, "x", "", none⟩] 3 none).droppedItems) :=
  ⟨by decide, by decide, by decide, by decide,
    C10_unmatched_item_vanishes [⟨1, some 7, "L", "", "", "", 0⟩]
      [⟨some 5, "x", "", none⟩] 3 none ⟨some 5, "x", "", none⟩ 5
      (by decide) (by decide) (by decide) (by decide)⟩

/-- C9 witness: a concrete ownerless record among two input lists is dropped
and appears nowhere in the output. -/
theorem C9_ownerless_list_dropped_witness :
    (⟨5, none, "X", "", "", "", 0⟩ : NList) ∈
      [(⟨5, none, "X", "", "", "", 0⟩ : NList), ⟨1, some 7, "L", "", "", "", 0⟩] ∧
    (⟨5, none, "X", "", "", "", 0⟩ : NList).borrower_id = none ∧
    ((⟨5, none, "X", "", "", "", 0⟩ : NList) ∈
      (split_and_write [⟨5, none, "X", "", "", "", 0⟩, ⟨1, some 7, "L", "", "", "", 0⟩]
        [] 3 none).droppedLists ∧
    (∀ entry ∈ (groupListsByUser
        [(⟨5, none, "X", "", "", "", 0⟩ : NList), ⟨1, some 7, "L", "", "", "", 0⟩]).1,
      (⟨5, none, "X", "", "", "", 0⟩ : NList) ∉ entry.2) ∧
    (∀ u ∈ (split_and_write [⟨5, none, "X", "", "", "", 0⟩, ⟨1, some 7, "L", "", "", "", 0⟩]
        [] 3 none).users,
      (⟨5, none, "X", "", "", "", 0⟩ : NList) ∉ u.lists_out ∧
      (⟨5, none, "X", "", "", "", 0⟩ : NList) ∉ u.new_lists_out) ∧
    (groupListsByUser
      ([(⟨5, none, "X", "", "", "", 0⟩ : NList), ⟨1, some 7, "L", "", "", "", 0⟩].filter
        (fun e => e.borrower_id.isSome))).1 =
      (groupListsByUser
        [(⟨5, none, "X", "", "", "", 0⟩ : NList), ⟨1, some 7, "L", "", "", "", 0⟩]).1) :=
  ⟨by decide, by decide,
    C9_ownerless_list_dropped
      [⟨5, none, "X", "", "", "", 0⟩, ⟨1, some 7, "L", "", "", "", 0⟩] [] 3 none
      ⟨5, none, "X", "", "", "", 0⟩ (by decide) (by decide)⟩

/-- C3: for a list whose associated-item count exceeds the cap (cap ≥ 1), the
chunks the rebalancer derives — `chunked` applied to the associated items
sorted stably ascending by `date_added` (code-point order, which puts empty
timestamps first) — concatenate in chunk order to exactly that sorted
sequence, which is a permutation of the associated items (no loss, no
duplication); the sort is stable (any already-ordered sublist of the input
survives into the output); every chunk has at most `cap` items and every chunk
except possibly the last has exactly `cap`. -/
theorem C3_chunks_partition_sorted (cap : Nat) (ibl : List (Int × List NItem))
    (lid : Int) (hcap : 0 < cap)
    (hover : cap < (sortedAssoc ibl lid).length) :
    (chunked (sortedAssoc ibl lid) cap).flatten = sortedAssoc ibl lid ∧
    (sortedAssoc ibl lid).Perm (lookupGroup ibl lid) ∧
    (sortedAssoc ibl lid).Pairwise itemLE ∧
    (∀ c : List NItem, c.Pairwise itemLE → c.Sublist (lookupGroup ibl lid) →
      c.Sublist (sortedAssoc ibl lid)) ∧
    (∀ c ∈ chunked (sortedAssoc ibl lid) cap, c ≠ [] ∧ c.length ≤ cap) ∧
    (∀ i, i + 1 < (chunked (sortedAssoc ibl lid) cap).length →
      ((chunked (sortedAssoc ibl lid) cap).getD i []).length = cap) := by
  refine ⟨chunked_flatten _ _ hcap, List.perm_insertionSort itemLE _, ?_, ?_,
    chunked_length_le _ _, chunked_length_eq _ _⟩
  · exact List.sorted_insertionSort itemLE (lookupGroup ibl lid)
  · intro c hc hsub
    exact List.sublist_insertionSort hc hsub

/-- C3 witness: three items on list 1 with cap 1 split into chunks [b], [c],
[a-with-later-date]. -/
theorem C3_chunks_partition_sorted_witness :
    0 < 1 ∧ 1 < (sortedAssoc [(1, [⟨some 1, "a", "d3", none⟩, ⟨some 1, "b", "d1", none⟩,
      ⟨some 1, "c", "d2", none⟩])] 1).length ∧
    ((chunked (sortedAssoc [(1, [⟨some 1, "a", "d3", none⟩, ⟨some 1, "b", "d1", none⟩,
        ⟨some 1, "c", "d2", none⟩])] 1) 1).flatten =
      sortedAssoc [(1, [⟨some 1, "a", "d3", none⟩, ⟨some 1, "b", "d1", none⟩,
        ⟨some 1, "c", "d2", none⟩])] 1 ∧
    (sortedAssoc [(1, [⟨some 1, "a", "d3", none⟩, ⟨some 1, "b", "d1", none⟩,
        ⟨some 1, "c", "d2", none⟩])] 1).Perm
      (lookupGroup [(1, [⟨some 1, "a", "d3", none⟩, ⟨some 1, "b", "d1", none⟩,
        ⟨some 1, "c", "d2", none⟩])] 1) ∧
    (sortedAssoc [(1, [⟨some 1, "a", "d3", none⟩, ⟨some 1, "b", "d1", none⟩,
        ⟨some 1, "c", "d2", none⟩])] 1).Pairwise itemLE ∧
    (∀ c : List NItem, c.Pairwise itemLE →
      c.Sublist (lookupGroup [(1, [⟨some 1, "a", "d3", none⟩, ⟨some 1, "b", "d1", none⟩,
        ⟨some 1, "c", "d2", none⟩])] 1) →
      c.Sublist (sortedAssoc [(1, [⟨some 1, "a", "d3", none⟩, ⟨some 1, "b", "d1", none⟩,
        ⟨some 1, "c", "d2", none⟩])] 1)) ∧
    (∀ c ∈ chunked (sortedAssoc [(1, [⟨some 1, "a", "d3", none⟩, ⟨some 1, "b", "d1", none⟩,
        ⟨some 1, "c", "d2", none⟩])] 1) 1, c ≠ [] ∧ c.length ≤ 1) ∧
    (∀ i, i + 1 < (chunked (sortedAssoc [(1, [⟨some 1, "a", "d3", none⟩,
        ⟨some 1, "b", "d1", none⟩, ⟨some 1, "c", "d2", none⟩])] 1) 1).length →
      ((chunked (sortedAssoc [(1, [⟨some 1, "a", "d3", none⟩, ⟨some 1, "b", "d1", none⟩,
        ⟨some 1, "c", "d2", none⟩])] 1) 1).getD i []).length = 1)) :=
  ⟨by decide, by decide,
    C3_chunks_partition_sorted 1 [(1, [⟨some 1, "a", "d3", none⟩, ⟨some 1, "b", "d1", none⟩,
      ⟨some 1, "c", "d2", none⟩])] 1 (by decide) (by decide)⟩

/-- C2 counterexample: an orphan item whose owner (9) is identifiable but owns
no list is neither emitted anywhere (the run produces no owner output at all)
nor dropped with a warning — it silently vanishes, contradicting the claim
that an identifiable-owner orphan is emitted under that owner's directory. -/
theorem C2_counterexample_orphan_of_listless_owner :
    (split_and_write [] [⟨none, "x", "", some 9⟩] 2 none).users = [] ∧
    (split_and_write [] [⟨none, "x", "", some 9⟩] 2 none).droppedItems = [] :=
  ⟨by decide, by decide⟩

/-- C2 amended: an orphan item (empty, absent or zero `list_id`) with no
identifiable owner is dropped with a warning; one with an identifiable owner
is filed in that owner's orphan bucket and — provided that owner also owns at
least one grouped list, so that the owner's directory is processed at all —
the bucket is emitted under that owner as `no_lists_<n>.csv` chunks numbered
from 1 in input order, each of size at most cap (all but the last exactly
cap).  Orphans of an owner with no lists are silently never written. -/
theorem C2_orphan_routing (lists_in : List NList) (items_in : List NItem)
    (cap : Nat) (sid : Option Int) (hcap : 0 < cap) :
    (∀ it ∈ items_in, isOrphanKey it.list_id = true → it.borrower_id = none →
      it ∈ (split_and_write lists_in items_in cap sid).droppedItems) ∧
    (∀ b : Int, (∃ l ∈ lists_in, l.borrower_id = some b) →
      ∃ u ∈ (split_and_write lists_in items_in cap sid).users,
        u.borrower = b ∧
        u.no_lists = chunked (items_in.filter
          (fun it => isOrphanKey it.list_id && it.borrower_id == some b)) cap ∧
        u.no_lists.flatten = items_in.filter
          (fun it => isOrphanKey it.list_id && it.borrower_id == some b) ∧
        (∀ c ∈ u.no_lists, c ≠ [] ∧ c.length ≤ cap) ∧
        (∀ i, i + 1 < u.no_lists.length → (u.no_lists.getD i []).length = cap)) := by
  constructor
  · intro it hit ho hb
    rw [split_droppedItems, groupItems_dropped]
    rw [List.mem_filter]
    exact ⟨hit, by simp [ho, hb]⟩
  · intro b hb
    obtain ⟨l, hl, hlb⟩ := hb
    have hlk : lookupGroup (groupListsByUser lists_in).1 b ≠ [] := by
      rw [groupListsByUser_lookup]
      intro hnil
      have : l ∈ lists_in.filter (fun e => e.borrower_id == some b) :=
        List.mem_filter.mpr ⟨hl, by simp [hlb]⟩
      rw [hnil] at this
      simp at this
    have hentry := mem_of_lookupGroup_ne_nil _ _ hlk
    obtain ⟨_, _, _, _, pu5⟩ := processUsers_spec cap (groupItems items_in).byList
      (groupItems items_in).noListByUser (groupListsByUser lists_in).1
      (initialNextId lists_in sid)
    obtain ⟨u, hu, hub, hun⟩ := pu5 hcap _ hentry hlk
    refine ⟨u, by rw [split_users]; exact hu, hub, ?_, ?_, ?_, ?_⟩
    · rw [hun, groupItems_noList]
    · rw [hun, groupItems_noList]
      exact chunked_flatten _ _ hcap
    · rw [hun]
      exact chunked_length_le _ _
    · rw [hun]
      exact chunked_length_eq _ _

/-- C2 witness: owner 9 owns one list and three orphan items with cap 2; the
orphans are emitted as chunks of sizes 2 and 1, and an ownerless orphan is
dropped. -/
theorem C2_orphan_routing_witness :
    0 < 2 ∧
    ((∀ it ∈ [(⟨none, "o1", "", some 9⟩ : NItem), ⟨none, "o2", "", some 9⟩,
        ⟨none, "o3", "", some 9⟩, ⟨some 0, "o4", "", none⟩],
      isOrphanKey it.list_id = true → it.borrower_id = none →
      it ∈ (split_and_write [⟨1, some 9, "L", "", "", "", 0⟩]
        [⟨none, "o1", "", some 9⟩, ⟨none, "o2", "", some 9⟩,
          ⟨none, "o3", "", some 9⟩, ⟨some 0, "o4", "", none⟩] 2 none).droppedItems) ∧
    (∀ b : Int, (∃ l ∈ [(⟨1, some 9, "L", "", "", "", 0⟩ : NList)], l.borrower_id = some b) →
      ∃ u ∈ (split_and_write [⟨1, some 9, "L", "", "", "", 0⟩]
          [⟨none, "o1", "", some 9⟩, ⟨none, "o2", "", some 9⟩,
            ⟨none, "o3", "", some 9⟩, ⟨some 0, "o4", "", none⟩] 2 none).users,
        u.borrower = b ∧
        u.no_lists = chunked ([(⟨none, "o1", "", some 9⟩ : NItem), ⟨none, "o2", "", some 9⟩,
            ⟨none, "o3", "", some 9⟩, ⟨some 0, "o4", "", none⟩].filter
          (fun it => isOrphanKey it.list_id && it.borrower_id == some b)) 2 ∧
        u.no_lists.flatten = [(⟨none, "o1", "", some 9⟩ : NItem), ⟨none, "o2", "", some 9⟩,
            ⟨none, "o3", "", some 9⟩, ⟨some 0, "o4", "", none⟩].filter
          (fun it => isOrphanKey it.list_id && it.borrower_id == some b) ∧
        (∀ c ∈ u.no_lists, c ≠ [] ∧ c.length ≤ 2) ∧
        (∀ i, i + 1 < u.no_lists.length → (u.no_lists.getD i []).length = 2))) :=
  ⟨by decide,
    C2_orphan_routing [⟨1, some 9, "L", "", "", "", 0⟩]
      [⟨none, "o1", "", some 9⟩, ⟨none, "o2", "", some 9⟩,
        ⟨none, "o3", "", some 9⟩, ⟨some 0, "o4", "", none⟩] 2 none (by decide)⟩

/-- C5 counterexample: when every input id is negative (single list with id
-3, two associated items, cap 1, no override), no positive id exists, so the
claim predicts a seed of 1,000,000 — but the code's truthiness test only
special-cases a maximum of exactly zero and seeds `max + 1 = -2`: the two
rebalanced chunks receive ids -2 and -1, not 1,000,000 and 1,000,001. -/
theorem C5_counterexample_negative_ids :
    (¬ ∃ l ∈ [(⟨-3, some 1, "N", "", "", "", 0⟩ : NList)], 0 < l.list_id) ∧
    ((split_and_write [⟨-3, some 1, "N", "", "", "", 0⟩]
        [⟨some (-3), "a", "", none⟩, ⟨some (-3), "b", "", none⟩] 1 none).users.map
      (fun u => u.new_lists_out.map (fun e => e.list_id))) = [[-2, -1]] ∧
    (-2 : Int) ≠ 1000000 :=
  ⟨by decide, by decide, by decide⟩

/-- C5 amended: with no explicit override the allocator is seeded with
`max + 1` whenever the maximum input list id is nonzero (even when it is
negative), and with 1,000,000 exactly when the maximum is zero; allocations
hand out consecutive values from the seed (the j-th fresh id overall is
seed + j), and no allocated id ever equals an input list id. -/
theorem C5_seed_and_freshness (lists_in : List NList) (items_in : List NItem)
    (cap : Nat) :
    (maxExisting lists_in ≠ 0 →
      initialNextId lists_in none = maxExisting lists_in + 1) ∧
    (maxExisting lists_in = 0 → initialNextId lists_in none = 1000000) ∧
    (∀ j, j < (allNewIds (split_and_write lists_in items_in cap none).users).length →
      (allNewIds (split_and_write lists_in items_in cap none).users).getD j 0 =
        initialNextId lists_in none + j) ∧
    (∀ idv ∈ allNewIds (split_and_write lists_in items_in cap none).users,
      ∀ l ∈ lists_in, idv ≠ l.list_id) := by
  obtain ⟨_, _, pu3, _, _⟩ := processUsers_spec cap (groupItems items_in).byList
    (groupItems items_in).noListByUser (groupListsByUser lists_in).1
    (initialNextId lists_in none)
  refine ⟨?_, ?_, ?_, ?_⟩
  · intro h
    simp [initialNextId, h]
  · intro h
    simp [initialNextId, h]
  · intro j hj
    rw [split_users] at hj ⊢
    exact pu3 j hj
  · intro idv hid l hl
    have hge : initialNextId lists_in none ≤ idv := by
      rw [split_users] at hid
      exact le_of_mem_getD_range _ _ pu3 idv hid
    have hlt := lt_initialNextId lists_in l hl
    omega

/-- C5 witness: the all-negative-ids run — seed -2, fresh ids never collide
with the input id -3. -/
theorem C5_seed_and_freshness_witness :
    maxExisting [(⟨-3, some 1, "N", "", "", "", 0⟩ : NList)] ≠ 0 ∧
    initialNextId [(⟨-3, some 1, "N", "", "", "", 0⟩ : NList)] none =
      maxExisting [(⟨-3, some 1, "N", "", "", "", 0⟩ : NList)] + 1 ∧
    (∀ idv ∈ allNewIds (split_and_write [⟨-3, some 1, "N", "", "", "", 0⟩]
        [⟨some (-3), "a", "", none⟩, ⟨some (-3), "b", "", none⟩] 1 none).users,
      ∀ l ∈ [(⟨-3, some 1, "N", "", "", "", 0⟩ : NList)], idv ≠ l.list_id) :=
  ⟨by decide,
    (C5_seed_and_freshness [⟨-3, some 1, "N", "", "", "", 0⟩]
      [⟨some (-3), "a", "", none⟩, ⟨some (-3), "b", "", none⟩] 1).1 (by decide),
    (C5_seed_and_freshness [⟨-3, some 1, "N", "", "", "", 0⟩]
      [⟨some (-3), "a", "", none⟩, ⟨some (-3), "b", "", none⟩] 1).2.2.2⟩

/-- C4 counterexample: two input lists carrying the same id 7 (nothing
deduplicates raw ids — e.g. two unparseable raw ids both normalize to 0, or
colliding rows) are both emitted unchanged, so the run's output contains the
list id 7 twice: the emitted ids are not pairwise distinct. -/
theorem C4_counterexample_duplicate_input_ids :
    emittedIds (split_and_write
      [⟨7, some 1, "A", "", "", "", 0⟩, ⟨7, some 2, "B", "", "", "", 0⟩] [] 5 none) =
      [7, 7] ∧
    ¬ (emittedIds (split_and_write
      [⟨7, some 1, "A", "", "", "", 0⟩, ⟨7, some 2, "B", "", "", "", 0⟩] [] 5 none)).Nodup :=
  ⟨by decide, by decide⟩

/-- C4 amended: provided the normalized input list ids are pairwise distinct
and no explicit start-id override is given, every run's emitted list ids (all
owners, pass-through and rebalanced together) are pairwise distinct; with
duplicate input ids, or an override placed at or below existing ids, the
guarantee fails. -/
theorem C4_emitted_ids_distinct (lists_in : List NList) (items_in : List NItem)
    (cap : Nat) (hnodup : (lists_in.map (fun e => e.list_id)).Nodup) :
    (emittedIds (split_and_write lists_in items_in cap none)).Nodup := by
  have hperm := emittedIds_perm_split (split_and_write lists_in items_in cap none)
  rw [hperm.nodup_iff]
  obtain ⟨_, _, pu3, pu4, _⟩ := processUsers_spec cap (groupItems items_in).byList
    (groupItems items_in).noListByUser (groupListsByUser lists_in).1
    (initialNextId lists_in none)
  have hprim : ((split_and_write lists_in items_in cap none).users.flatMap
      (fun u => u.lists_out.map (fun e => e.list_id))) =
      (allPrimary (split_and_write lists_in items_in cap none).users).map
        (fun e => e.list_id) := by
    simp [allPrimary, List.map_flatMap]
  have pu3' : ∀ j, j < (allNewIds (split_and_write lists_in items_in cap none).users).length →
      (allNewIds (split_and_write lists_in items_in cap none).users).getD j 0 =
        initialNextId lists_in none + j := by
    rw [split_users]
    exact pu3
  rw [hprim]
  refine List.Nodup.append ?_ ?_ ?_
  · have hsub : (allPrimary (split_and_write lists_in items_in cap none).users).Sublist
        ((groupListsByUser lists_in).1.flatMap Prod.snd) := by
      rw [split_users]
      exact pu4
    have hsubmap := hsub.map (fun e => e.list_id)
    have hpermmap := (groupListsByUser_perm lists_in).map (fun e => e.list_id)
    have hnd2 : ((lists_in.filter (fun e => e.borrower_id.isSome)).map
        (fun e => e.list_id)).Nodup :=
      hnodup.sublist ((List.filter_sublist lists_in).map (fun e => e.list_id))
    exact (hpermmap.nodup_iff.mpr hnd2).sublist hsubmap
  · exact nodup_of_getD_range _ (initialNextId lists_in none) pu3'
  · intro x hx1 hx2
    obtain ⟨e, he, hex⟩ := List.mem_map.mp hx1
    have hin := allPrimary_mem_input lists_in items_in cap none e he
    have hlt := lt_initialNextId lists_in e hin.1
    have hge : initialNextId lists_in none ≤ x :=
      le_of_mem_getD_range _ _ pu3' x hx2
    omega

/-- C4 witness: a run with distinct input ids 5 and 6, a split of list 5, and
fresh ids starting at 7 has pairwise-distinct emitted ids. -/
theorem C4_emitted_ids_distinct_witness :
    ([(⟨5, some 1, "A", "", "", "", 0⟩ : NList), ⟨6, some 1, "B", "", "", "", 0⟩].map
      (fun e => e.list_id)).Nodup ∧
    (emittedIds (split_and_write
      [⟨5, some 1, "A", "", "", "", 0⟩, ⟨6, some 1, "B", "", "", "", 0⟩]
      [⟨some 5, "a", "", none⟩, ⟨some 5, "b", "", none⟩] 1 none)).Nodup :=
  ⟨by decide,
    C4_emitted_ids_distinct
      [⟨5, some 1, "A", "", "", "", 0⟩, ⟨6, some 1, "B", "", "", "", 0⟩]
      [⟨some 5, "a", "", none⟩, ⟨some 5, "b", "", none⟩] 1 (by decide)⟩

/-- C6 counterexample: with an explicit start id of 5, list 6 ("X", two items,
cap 1) is split and its first derived record gets id 5 and name "X (1)" —
which is byte-for-byte the original record of input list 5, itself split (two
items exceed the cap).  So an original list record that overflows does appear
in the output, refuting the unconditional "the original list record itself
appears in no output". -/
theorem C6_counterexample_override_resurrects_original :
    ((⟨5, some 1, "X (1)", "", "", "", 0⟩ : NList) ∈
      [(⟨6, some 1, "X", "", "", "", 0⟩ : NList), ⟨5, some 1, "X (1)", "", "", "", 0⟩]) ∧
    1 < (sortedAssoc (groupItems [(⟨some 6, "a", "", none⟩ : NItem), ⟨some 6, "b", "", none⟩,
        ⟨some 5, "c", "", none⟩, ⟨some 5, "d", "", none⟩]).byList (5 : Int)).length ∧
    (⟨5, some 1, "X (1)", "", "", "", 0⟩ : NList) ∈
      ((split_and_write
        [⟨6, some 1, "X", "", "", "", 0⟩, ⟨5, some 1, "X (1)", "", "", "", 0⟩]
        [⟨some 6, "a", "", none⟩, ⟨some 6, "b", "", none⟩,
          ⟨some 5, "c", "", none⟩, ⟨some 5, "d", "", none⟩] 1 (some 5)).users.flatMap
        (fun u => u.new_lists_out)) :=
  ⟨by decide, by decide, by decide⟩

/-- C6 amended: with no explicit start-id override, for every emitted owner
the derived chunk records are exactly, in order, one record per chunk equal to
its source record on every field except `list_id` (replaced by consecutively
allocated fresh ids) and `name` (replaced by "<original name> (<n>)" where n
counts, per owner and per base name, previously derived chunks of the same
original name, starting at 1); the pass-through file holds exactly the
owner's non-overflowing records, and an overflowing original record appears
in neither file. -/
theorem C6_chunk_records_frame (lists_in : List NList) (items_in : List NItem)
    (cap : Nat) (u : UserOutput)
    (hu : u ∈ (split_and_write lists_in items_in cap none).users) :
    (∃ e ∈ (groupListsByUser lists_in).1, ∃ nid' : Int,
      u.new_lists_out.length = (chunkSources cap (groupItems items_in).byList e.2).length ∧
      (∀ i, i < (chunkSources cap (groupItems items_in).byList e.2).length →
        u.new_lists_out.getD i dummyList =
          { (chunkSources cap (groupItems items_in).byList e.2).getD i dummyList with
            list_id := nid' + i
            name := mkChunkName
              ((chunkSources cap (groupItems items_in).byList e.2).getD i dummyList).name
              ((((chunkSources cap (groupItems items_in).byList e.2).take i).map
                NList.name).count
                ((chunkSources cap (groupItems items_in).byList e.2).getD i
                  dummyList).name + 1) }) ∧
      u.lists_out = e.2.filter
        (fun b => decide ((sortedAssoc (groupItems items_in).byList b.list_id).length ≤ cap))) ∧
    (∀ b ∈ lists_in,
      cap < (sortedAssoc (groupItems items_in).byList b.list_id).length →
      b ∉ u.lists_out ∧ b ∉ u.new_lists_out) := by
  obtain ⟨pu1, _, pu3, _, _⟩ := processUsers_spec cap (groupItems items_in).byList
    (groupItems items_in).noListByUser (groupListsByUser lists_in).1
    (initialNextId lists_in none)
  rw [split_users] at hu
  obtain ⟨e, he, nid', _, hlo, hnlo, _, _⟩ := pu1 u hu
  have hinv0 : ∀ s, getCount ([] : List (String × Nat)) s =
      ([] : List String).count s + 1 := by intro s; simp [getCount]
  obtain ⟨pl1, _, pl3, pl4, _⟩ := processLists_spec cap (groupItems items_in).byList
    e.2 nid' [] [] hinv0
  constructor
  · refine ⟨e, he, nid', ?_, ?_, ?_⟩
    · rw [hnlo]
      exact pl3
    · intro i hi
      rw [hnlo]
      simpa using pl4 i hi
    · rw [hlo]
      exact pl1
  · intro b hb hover
    constructor
    · intro hmem
      rw [hlo, pl1] at hmem
      have hp := (List.mem_filter.mp hmem).2
      rw [decide_eq_true_eq] at hp
      omega
    · intro hmem
      have hid : b.list_id ∈ allNewIds (split_and_write lists_in items_in cap none).users := by
        rw [split_users]
        exact List.mem_flatMap.mpr ⟨u, hu, List.mem_map_of_mem _ hmem⟩
      have hge : initialNextId lists_in none ≤ b.list_id := by
        apply le_of_mem_getD_range _ _ ?_ _ hid
        intro j hj
        rw [split_users] at hj ⊢
        exact pu3 j hj
      have hlt := lt_initialNextId lists_in b hb
      omega

/-- Witness inputs for the frame claim: owner 7 with one overflowing list. -/
def c6L : List NList := [⟨1, some 7, "L", "", "", "", 0⟩]

/-- Witness items: two items on list 1. -/
def c6I : List NItem := [⟨some 1, "x", "a", none⟩, ⟨some 1, "y", "b", none⟩]

/-- Witness output directory actually produced for owner 7. -/
def c6U : UserOutput :=
  { borrower := 7
    lists_out := []
    new_lists_out := [⟨2, some 7, "L (1)", "", "", "", 0⟩, ⟨3, some 7, "L (2)", "", "", "", 0⟩]
    items_out := [(2, [⟨some 1, "x", "a", none⟩]), (3, [⟨some 1, "y", "b", none⟩])]
    no_lists := [] }

/-- C6 witness: the concrete owner-7 run — list 1 splits into two chunk
records "L (1)", "L (2)" with fresh ids 2 and 3, all other fields copied, and
the overflowing original appears in neither output file. -/
theorem C6_chunk_records_frame_witness :
    c6U ∈ (split_and_write c6L c6I 1 none).users ∧
    ((∃ e ∈ (groupListsByUser c6L).1, ∃ nid' : Int,
      c6U.new_lists_out.length = (chunkSources 1 (groupItems c6I).byList e.2).length ∧
      (∀ i, i < (chunkSources 1 (groupItems c6I).byList e.2).length →
        c6U.new_lists_out.getD i dummyList =
          { (chunkSources 1 (groupItems c6I).byList e.2).getD i dummyList with
            list_id := nid' + i
            name := mkChunkName
              ((chunkSources 1 (groupItems c6I).byList e.2).getD i dummyList).name
              ((((chunkSources 1 (groupItems c6I).byList e.2).take i).map
                NList.name).count
                ((chunkSources 1 (groupItems c6I).byList e.2).getD i
                  dummyList).name + 1) }) ∧
      c6U.lists_out = e.2.filter
        (fun b => decide ((sortedAssoc (groupItems c6I).byList b.list_id).length ≤ 1))) ∧
    (∀ b ∈ c6L,
      1 < (sortedAssoc (groupItems c6I).byList b.list_id).length →
      b ∉ c6U.lists_out ∧ b ∉ c6U.new_lists_out)) :=
  ⟨by decide, C6_chunk_records_frame c6L c6I 1 c6U (by decide)⟩

/-- C7 counterexample: the fallback is not "the same string with its single T
replaced and otherwise left unchanged": the unparseable input " xTy "
normalizes to "x y" — the code strips surrounding whitespace first (and
replaces every T, not a single one), so the claimed value " x y " is not
produced. -/
theorem C7_counterexample_fallback_strips :
    tryParseDt (pyStrip " xTy ") = none ∧
    normalize_datetime (some " xTy ") = some "x y" ∧
    some "x y" ≠ some " x y " :=
  ⟨by decide, by decide, by decide⟩

/-- C7 amended: None or a whitespace-only string normalizes to the empty
string; a nonempty string none of the known patterns (nor the isoformat
fallback) parses normalizes to its whitespace-stripped form with every T
replaced by a space; a parse without timezone is formatted directly as
YYYY-MM-DD HH:MM:SS; a parse with timezone is converted to UTC, the offset
dropped, and formatted likewise — unless the UTC conversion leaves years
1–9999, in which case the OverflowError escapes and the row is lost (modelled
by a `none` result). -/
theorem C7_normalize_datetime_cases (value : Option String) :
    (value = none → normalize_datetime value = some "") ∧
    (∀ v, value = some v → pyStrip v = "" → normalize_datetime value = some "") ∧
    (∀ v, value = some v → pyStrip v ≠ "" → tryParseDt (pyStrip v) = none →
      normalize_datetime value = some (pyReplaceChar (pyStrip v) 'T' " ")) ∧
    (∀ v dt, value = some v → pyStrip v ≠ "" → tryParseDt (pyStrip v) = some dt →
      dt.tzOff = none → normalize_datetime value = some (fmtOutput dt)) ∧
    (∀ v dt off, value = some v → pyStrip v ≠ "" → tryParseDt (pyStrip v) = some dt →
      dt.tzOff = some off →
      normalize_datetime value = (astimezoneUTC dt off).map fmtOutput) := by
  refine ⟨?_, ?_, ?_, ?_, ?_⟩
  · intro h
    rw [h]
    rfl
  · intro v hv hs
    rw [hv]
    simp [normalize_datetime, hs]
  · intro v hv hs hp
    rw [hv]
    simp [normalize_datetime, hs, hp]
  · intro v dt hv hs hp ht
    rw [hv]
    simp [normalize_datetime, hs, hp, ht]
  · intro v dt off hv hs hp ht
    rw [hv]
    simp [normalize_datetime, hs, hp, ht]

/-- C7 witness: "2020-01-02T03:04:05+01:00" parses with a +01:00 offset
(3,600,000,000 microseconds) and normalizes to the UTC wall time
"2020-01-02 02:04:05". -/
theorem C7_normalize_datetime_cases_witness :
    pyStrip "2020-01-02T03:04:05+01:00" ≠ "" ∧
    tryParseDt (pyStrip "2020-01-02T03:04:05+01:00") =
      some ⟨2020, 1, 2, 3, 4, 5, 0, some 3600000000⟩ ∧
    normalize_datetime (some "2020-01-02T03:04:05+01:00") =
      (astimezoneUTC ⟨2020, 1, 2, 3, 4, 5, 0, some 3600000000⟩ 3600000000).map fmtOutput ∧
    (astimezoneUTC ⟨2020, 1, 2, 3, 4, 5, 0, some 3600000000⟩ 3600000000).map fmtOutput =
      some "2020-01-02 02:04:05" :=
  ⟨by decide, by decide,
    (C7_normalize_datetime_cases (some "2020-01-02T03:04:05+01:00")).2.2.2.2
      "2020-01-02T03:04:05+01:00" ⟨2020, 1, 2, 3, 4, 5, 0, some 3600000000⟩ 3600000000
      rfl (by decide) (by decide) rfl,
    by decide⟩

end GenCsv
